import Mathlib

/-!
Shallow embedding of the chunked video-processing pipeline of
`src/routes/videoRouter.js`: the chunk planner inside
`createOptimizedVideoChunks`, the batched parallel execution pattern used by
`createOptimizedVideoChunks` and `transcribeChunksInParallel`, the subtitle
re-timing helper `adjustSubtitlesTiming`, the merge helper `combineSubtitles`,
and the `/upload` background task with its `cleanupFiles` calls.

Modelling conventions:
* JavaScript numbers are modelled as exact rationals (`ℚ`); `Math.floor` is
  `Int.floor`, and the JS remainder operator `%` (which has the sign of the
  dividend: `a % b = a - b * trunc (a / b)`) is `jsMod`.
* JS strings are processed as `List Char`; `split('\n')`, `join('\n')` and
  `trim()` are modelled directly on character lists, and `String` wrappers
  mirror the source signatures.
* The regex of `adjustSubtitlesTiming` is modelled by a deterministic
  leftmost-match scanner (`findTs`); the pattern contains no alternation and
  `\s*` is followed by characters that are not whitespace, so the regex
  engine's behaviour is exactly this deterministic scan.
-/

namespace VideoPipeline

/-- Truncation toward zero, the rounding used by the JS `%` operator. -/
def jsTrunc (q : ℚ) : ℤ := if 0 ≤ q then ⌊q⌋ else ⌈q⌉

/-- The JS `%` operator on numbers: `a % b = a - b * trunc (a / b)`. -/
def jsMod (a b : ℚ) : ℚ := a - b * jsTrunc (a / b)

/-- The four captured fields of one `HH:MM:SS,mmm` timestamp, as captured by
the regex groups in `adjustSubtitlesTiming` (videoRouter.js:369): two digits
each for hours, minutes and seconds, three digits for milliseconds, so each
field is bounded by the digit count at the capture site. -/
structure Ts where
  h : ℕ
  m : ℕ
  s : ℕ
  ms : ℕ
deriving DecidableEq

/-- `startTotalSeconds` (videoRouter.js:384): `h*3600 + m*60 + s + ms/1000`. -/
def Ts.toSeconds (t : Ts) : ℚ := t.h * 3600 + t.m * 60 + t.s + (t.ms : ℚ) / 1000

/-- The offset operation of the timestamp codec (videoRouter.js:388-389):
`newStartTotalSeconds = startTotalSeconds + offsetSeconds`. -/
def offsetTime (t delta : ℚ) : ℚ := t + delta

/-- `Math.floor(t / 3600)` (videoRouter.js:392). -/
def fmtHours (t : ℚ) : ℤ := ⌊t / 3600⌋

/-- `Math.floor((t % 3600) / 60)` (videoRouter.js:393). -/
def fmtMinutes (t : ℚ) : ℤ := ⌊jsMod t 3600 / 60⌋

/-- `Math.floor(t % 60)` (videoRouter.js:394). -/
def fmtSeconds (t : ℚ) : ℤ := ⌊jsMod t 60⌋

/-- `Math.floor((t % 1) * 1000)` (videoRouter.js:395). -/
def fmtMillis (t : ℚ) : ℤ := ⌊jsMod t 1 * 1000⌋

/-- `String(v).padStart(n, '0')` on a character list: prepend zeros until the
length is at least `n`. -/
def jsPadStart (n : ℕ) (cs : List Char) : List Char :=
  List.replicate (n - cs.length) '0' ++ cs

/-- `String(v)` for an integer-valued JS number: its decimal numeral. -/
def intChars (v : ℤ) : List Char := (toString v).toList

/-- One rendered `HH:MM:SS,mmm` timestamp, the building block of
`newTimestampLine` (videoRouter.js:403): every component is
`String(component).padStart(width, '0')`. -/
def renderTime (t : ℚ) : List Char :=
  jsPadStart 2 (intChars (fmtHours t)) ++ [':'] ++
  jsPadStart 2 (intChars (fmtMinutes t)) ++ [':'] ++
  jsPadStart 2 (intChars (fmtSeconds t)) ++ [','] ++
  jsPadStart 3 (intChars (fmtMillis t))

/-- The full `newTimestampLine` (videoRouter.js:403). -/
def renderTsLine (tStart tEnd : ℚ) : List Char :=
  renderTime tStart ++ " --> ".toList ++ renderTime tEnd

/-- Numeric value of a decimal digit character. -/
def digitVal (c : Char) : ℕ := c.toNat - 48

/-- Match `\d{2}` at the head of the character list. -/
def take2 : List Char → Option (ℕ × List Char)
  | a :: b :: rest =>
      if a.isDigit ∧ b.isDigit then some (10 * digitVal a + digitVal b, rest) else none
  | _ => none

/-- Match `\d{3}` at the head of the character list. -/
def take3 : List Char → Option (ℕ × List Char)
  | a :: b :: c :: rest =>
      if a.isDigit ∧ b.isDigit ∧ c.isDigit then
        some (100 * digitVal a + 10 * digitVal b + digitVal c, rest)
      else none
  | _ => none

/-- Match one literal character at the head of the list. -/
def takeLit (c : Char) : List Char → Option (List Char)
  | d :: rest => if d = c then some rest else none
  | [] => none

/-- `\s*`: greedily skip whitespace.  In the timestamp pattern `\s*` is always
followed by a non-whitespace character (`-` or a digit), so the greedy match
never needs to backtrack. -/
def skipWs (cs : List Char) : List Char := cs.dropWhile Char.isWhitespace

/-- Match one group `(\d{2}):(\d{2}):(\d{2}),(\d{3})` of the timestamp
pattern (videoRouter.js:369), anchored at the head of `cs`. -/
def matchTime (cs : List Char) : Option (Ts × List Char) :=
  match take2 cs with
  | none => none
  | some (h, cs) =>
    match takeLit ':' cs with
    | none => none
    | some cs =>
      match take2 cs with
      | none => none
      | some (m, cs) =>
        match takeLit ':' cs with
        | none => none
        | some cs =>
          match take2 cs with
          | none => none
          | some (s, cs) =>
            match takeLit ',' cs with
            | none => none
            | some cs =>
              match take3 cs with
              | none => none
              | some (ms, cs) => some (⟨h, m, s, ms⟩, cs)

/-- Match the separator `\s*-->\s*` of the timestamp pattern, anchored at the
head of `cs`. -/
def matchArrow (cs : List Char) : Option (List Char) :=
  match takeLit '-' (skipWs cs) with
  | none => none
  | some cs =>
    match takeLit '-' cs with
    | none => none
    | some cs =>
      match takeLit '>' cs with
      | none => none
      | some cs => some (skipWs cs)

/-- Attempt the timestamp pattern
`(\d{2}):(\d{2}):(\d{2}),(\d{3})\s*-->\s*(\d{2}):(\d{2}):(\d{2}),(\d{3})`
(videoRouter.js:369) anchored at the head of `cs`. -/
def matchTsAt (cs : List Char) : Option (Ts × Ts) :=
  match matchTime cs with
  | none => none
  | some (t1, cs) =>
    match matchArrow cs with
    | none => none
    | some cs =>
      match matchTime cs with
      | none => none
      | some (t2, _) => some (t1, t2)

/-- `line.match(timestampRegex)`: leftmost match of the pattern in the line. -/
def findTs : List Char → Option (Ts × Ts)
  | [] => none
  | c :: cs => (matchTsAt (c :: cs)).orElse fun _ => findTs cs

/-- Processing of one line by `adjustSubtitlesTiming` (videoRouter.js:366-408):
when the timestamp regex matches, the whole line is replaced by the
re-rendered timestamp line shifted by `offsetSeconds`; otherwise the line is
kept unchanged. -/
def adjustLine (offsetSeconds : ℚ) (line : List Char) : List Char :=
  match findTs line with
  | some (ts1, ts2) =>
      renderTsLine (offsetTime ts1.toSeconds offsetSeconds)
        (offsetTime ts2.toSeconds offsetSeconds)
  | none => line

/-- `s.split('\n')` on a character list. -/
def splitNl : List Char → List (List Char)
  | [] => [[]]
  | c :: cs =>
      if c = '\n' then [] :: splitNl cs
      else
        match splitNl cs with
        | [] => [[c]]
        | l :: ls => (c :: l) :: ls

/-- `lines.join('\n')` on character lists. -/
def joinNl : List (List Char) → List Char
  | [] => []
  | [l] => l
  | l :: ls => l ++ '\n' :: joinNl ls

/-- `adjustSubtitlesTiming(srtContent, offsetSeconds)` (videoRouter.js:361-412):
split into lines, rewrite every line that contains a timestamp range, join. -/
def adjustSubtitlesTiming (srtContent : String) (offsetSeconds : ℚ) : String :=
  String.mk (joinNl ((splitNl srtContent.toList).map (adjustLine offsetSeconds)))

/-- `s.trim()`: strip whitespace from both ends. -/
def trimChars (cs : List Char) : List Char :=
  ((cs.dropWhile Char.isWhitespace).reverse.dropWhile Char.isWhitespace).reverse

/-- `/^\d+$/` applied to an already-trimmed line: nonempty and all digits. -/
def isIndexLine (cs : List Char) : Bool :=
  !cs.isEmpty && cs.all Char.isDigit

/-- One iteration of the line loop of `combineSubtitles`
(videoRouter.js:422-439).  The accumulator is the pair
(`combinedSrt`, `subtitleIndex`); digit-only lines are replaced by the running
index, timestamp lines and nonempty text lines are emitted trimmed, empty
lines are kept. -/
def combineStep (acc : List Char × ℕ) (rawLine : List Char) : List Char × ℕ :=
  let line := trimChars rawLine
  if isIndexLine line then
    (acc.1 ++ (toString acc.2).toList ++ ['\n'], acc.2 + 1)
  else if (findTs line).isSome then
    (acc.1 ++ line ++ ['\n'], acc.2)
  else if 0 < line.length then
    (acc.1 ++ line ++ ['\n'], acc.2)
  else
    (acc.1 ++ ['\n'], acc.2)

/-- `combineSubtitles(transcriptions)` (videoRouter.js:415-443): fold the line
loop over every transcription in order, starting from the empty string and
`subtitleIndex = 1`, and trim the final accumulated text. -/
def combineSubtitles (transcriptions : List String) : String :=
  String.mk (trimChars
    (transcriptions.foldl
      (fun acc transcription => (splitNl transcription.toList).foldl combineStep acc)
      ([], 1)).1)

/-- One planned chunk task (videoRouter.js:269-274); `index` is
`Math.floor(startTime / chunkDuration) + 1`, `endTime` is
`Math.min(startTime + chunkDuration, totalDuration)`. -/
structure ChunkTask where
  index : ℤ
  startTime : ℚ
  endTime : ℚ
  duration : ℚ
deriving DecidableEq

/-- The chunk-planning loop of `createOptimizedVideoChunks`
(videoRouter.js:265-275): `for (let startTime = 0; startTime < totalDuration;
startTime += chunkDuration)`.  The conjunct `0 < chunkDuration` in the guard
only serves termination of the Lean recursion; the source always runs the loop
with `chunkDuration = 60`, for which it holds (with a non-positive step the JS
loop would never terminate, which a total model cannot express). -/
def planLoop (totalDuration chunkDuration startTime : ℚ) : List ChunkTask :=
  if h : startTime < totalDuration ∧ 0 < chunkDuration then
    { index := ⌊startTime / chunkDuration⌋ + 1
      startTime := startTime
      endTime := min (startTime + chunkDuration) totalDuration
      duration := min (startTime + chunkDuration) totalDuration - startTime } ::
      planLoop totalDuration chunkDuration (startTime + chunkDuration)
  else []
termination_by (⌈(totalDuration - startTime) / chunkDuration⌉).toNat
decreasing_by
  have hT := h.1
  have hL := h.2
  have hx : 0 < (totalDuration - startTime) / chunkDuration :=
    div_pos (by linarith) hL
  have hc : 0 < ⌈(totalDuration - startTime) / chunkDuration⌉ := Int.ceil_pos.mpr hx
  have he : (totalDuration - (startTime + chunkDuration)) / chunkDuration
      = (totalDuration - startTime) / chunkDuration - 1 := by
    field_simp
    ring
  rw [he, Int.ceil_sub_one]
  omega

/-- The segment planner: the planning loop started at `startTime = 0`
(videoRouter.js:265). -/
def planSegments (totalDuration chunkDuration : ℚ) : List ChunkTask :=
  planLoop totalDuration chunkDuration 0

/-- The chunk produced for 0-based position `i` of the planning loop, spelled
out: 1-based index, window `[i*L, min((i+1)*L, T))`. -/
def expectedChunk (T L : ℚ) (i : ℕ) : ChunkTask :=
  { index := (i : ℤ) + 1
    startTime := (i : ℚ) * L
    endTime := min (((i : ℚ) + 1) * L) T
    duration := min (((i : ℚ) + 1) * L) T - (i : ℚ) * L }

/-- The bounds guaranteed by the capture groups of the timestamp regex: two
digits for hours, minutes and seconds, three for milliseconds. -/
def Ts.inRange (f : Ts) : Prop := f.h ≤ 99 ∧ f.m ≤ 99 ∧ f.s ≤ 99 ∧ f.ms ≤ 999

/-- A canonical timestamp: minutes and seconds below 60, fields within the
regex digit widths. -/
def Ts.canonical (f : Ts) : Prop := f.h ≤ 99 ∧ f.m ≤ 59 ∧ f.s ≤ 59 ∧ f.ms ≤ 999

/-- The field values produced when a timestamp whose whole-second part is
`3600*h + 60*m + s` is shifted by an integral offset `o` and re-rendered by
`adjustSubtitlesTiming`: the millisecond field is untouched and the seconds
are redistributed by division. -/
def shiftTs (o : ℕ) (f : Ts) : Ts :=
  { h := (3600 * f.h + 60 * f.m + f.s + o) / 3600
    m := (3600 * f.h + 60 * f.m + f.s + o) % 3600 / 60
    s := (3600 * f.h + 60 * f.m + f.s + o) % 60
    ms := f.ms }

/-- The canonical two/two/two/three-digit rendering `HH:MM:SS,mmm` of a
timestamp whose fields are in range. -/
def canonTime (f : Ts) : List Char :=
  [Nat.digitChar (f.h / 10), Nat.digitChar (f.h % 10), ':',
   Nat.digitChar (f.m / 10), Nat.digitChar (f.m % 10), ':',
   Nat.digitChar (f.s / 10), Nat.digitChar (f.s % 10), ',',
   Nat.digitChar (f.ms / 100), Nat.digitChar (f.ms / 10 % 10),
   Nat.digitChar (f.ms % 10)]

/-- A canonical timestamp-range line `HH:MM:SS,mmm --> HH:MM:SS,mmm`. -/
def canonTsLine (a b : Ts) : List Char :=
  canonTime a ++ [' ', '-', '-', '>', ' '] ++ canonTime b

/-- Characters that appear in decimal numerals: decimal digits, which are not
whitespace, not `:` and not a newline. -/
def goodDigitChar (c : Char) : Prop :=
  c.isDigit = true ∧ c.isWhitespace = false ∧ c ≠ ':' ∧ c ≠ '\n'

/-- A subtitle text line as produced by the transcriber: already trimmed,
nonempty, not consisting solely of digits, not containing a timestamp range,
and free of newlines. -/
def GoodLine (l : List Char) : Prop :=
  trimChars l = l ∧ l ≠ [] ∧ l.all Char.isDigit = false ∧ findTs l = none ∧ '\n' ∉ l

/-- One subtitle cue of a raw per-segment track: its original index numeral,
its start and end timestamps and its text lines. -/
structure Cue where
  idx : ℕ
  tsa : Ts
  tsb : Ts
  text : List (List Char)
deriving DecidableEq

/-- The lines of one rendered cue block: index numeral, timestamp range, text
lines, then the blank separator line. -/
def renderCueLines (c : Cue) : List (List Char) :=
  (Nat.repr c.idx).toList :: canonTsLine c.tsa c.tsb :: (c.text ++ [[]])

/-- A rendered SRT track: the cue blocks joined with newlines (each block ends
with its blank separator line, so the track ends with a newline). -/
def segmentSrt (cs : List Cue) : String :=
  String.mk (joinNl (cs.flatMap renderCueLines))

/-- A cue shifted by the segment start offset `o` (whole seconds), with the
timestamp fields that `adjustSubtitlesTiming` re-renders. -/
def adjCue (o : ℕ) (c : Cue) : Cue :=
  { idx := c.idx, tsa := shiftTs o c.tsa, tsb := shiftTs o c.tsb, text := c.text }

/-- Renumber cues consecutively starting at `i`, as the `subtitleIndex`
counter of `combineSubtitles` does. -/
def renumFrom (i : ℕ) : List Cue → List Cue
  | [] => []
  | c :: cs => { c with idx := i } :: renumFrom (i + 1) cs

/-- The merged track the pipeline should produce from the given
`(startOffset, cues)` segments: offset every cue by its segment start, then
renumber the concatenation from 1. -/
def mergedCues (segments : List (ℕ × List Cue)) : List Cue :=
  renumFrom 1 (segments.flatMap fun p => p.2.map (adjCue p.1))

/-- Hypotheses on one cue of a segment at offset `o`: canonical timestamps,
shifted times below 100 hours (so the re-rendered fields keep their widths),
and well-behaved text lines. -/
def CueOK (o : ℕ) (c : Cue) : Prop :=
  c.tsa.canonical ∧ c.tsb.canonical
  ∧ 3600 * c.tsa.h + 60 * c.tsa.m + c.tsa.s + o ≤ 359999
  ∧ 3600 * c.tsb.h + 60 * c.tsb.m + c.tsb.s + o ≤ 359999
  ∧ ∀ l ∈ c.text, GoodLine l

/-- Hypotheses on a segment list: every segment produced at least one cue and
every cue is well-behaved for its segment offset. -/
def SegsOK (segments : List (ℕ × List Cue)) : Prop :=
  ∀ p ∈ segments, p.2 ≠ [] ∧ ∀ c ∈ p.2, CueOK p.1 c

/-- The text emitted by the `combineSubtitles` line loop for a list of lines,
starting from `subtitleIndex = i`, together with the final index (the
accumulated-prefix argument of `combineStep` factored out). -/
def emitLines : ℕ → List (List Char) → List Char × ℕ
  | i, [] => ([], i)
  | i, l :: ls =>
    let e := combineStep ([], i) l
    let r := emitLines e.2 ls
    (e.1 ++ r.1, r.2)

/-- Settle-time order of a batch of already-determined task outcomes: among
the rejected tasks of `batch` (whose absolute indices start at `base`), the
one whose `rank` is least, i.e. the first rejection to settle.  `Promise.all`
rejects with exactly this task's error. -/
def firstRejected {E A : Type} (rank : ℕ → ℕ) (base : ℕ) :
    List (Except E A) → Option (ℕ × E)
  | [] => none
  | Except.error e :: rest =>
    match firstRejected rank (base + 1) rest with
    | none => some (base, e)
    | some (j, e') => if rank j < rank base then some (j, e') else some (base, e)
  | Except.ok _ :: rest => firstRejected rank (base + 1) rest

/-- `Promise.all` over one batch: the list of values in task order when every
task fulfils, otherwise the error of the first rejection to settle, paired
with that task's absolute index. -/
def promiseAll {E A : Type} (rank : ℕ → ℕ) (base : ℕ) (batch : List (Except E A)) :
    Except (ℕ × E) (List A) :=
  match firstRejected rank base batch with
  | some ie => Except.error ie
  | none => Except.ok (batch.filterMap Except.toOption)

/-- The batching loop `for (i = 0; i < n; i += limit) await Promise.all(slice)`
used by `createOptimizedVideoChunks` (videoRouter.js:300-306, limit 4) and
`transcribeChunksInParallel` (videoRouter.js:341-355, limit 3).  A batch
rejection aborts the loop: accumulated results are discarded and later batches
are never launched.  `base` is the absolute index of the head of the current
slice.  (With limit 0 the JS loop would never terminate; the model behaves as
limit 1 there, and the source only uses limits 3 and 4.) -/
def runBoundedAux {E A : Type} (rank : ℕ → ℕ) (limit : ℕ) :
    List (Except E A) → ℕ → Except (ℕ × E) (List A)
  | [], _ => Except.ok []
  | o :: rest, base =>
    match promiseAll rank base (o :: rest.take (limit - 1)) with
    | Except.error ie => Except.error ie
    | Except.ok vals =>
      match runBoundedAux rank limit (rest.drop (limit - 1))
          (base + 1 + (rest.take (limit - 1)).length) with
      | Except.error ie => Except.error ie
      | Except.ok more => Except.ok (vals ++ more)
termination_by l _ => l.length
decreasing_by
  simp [List.length_drop]
  omega

/-- The bounded batch executor over a list of task outcomes, with a given
settle-time order. -/
def runBounded {E A : Type} (rank : ℕ → ℕ) (tasks : List (Except E A))
    (limit : ℕ) : Except (ℕ × E) (List A) :=
  runBoundedAux rank limit tasks 0

/-- The `status` values of the Video record (`src/models/video.js`). -/
inductive JobStatus where
  | processing
  | processed
  | failed
deriving DecidableEq

/-- The Job fields the pipeline mutates (videoRouter.js:146-161, 219-224,
232-237): status, final media references and subtitle text. -/
structure Job where
  status : JobStatus
  videoUrl : Option String
  thumbnailUrl : Option String
  subtitles : String
deriving DecidableEq

/-- Externally visible events of the background task, in order: Job status
writes (`video.save()`) and file-deletion attempts (`unlink`). -/
inductive FsEv where
  | save (s : JobStatus)
  | unlink (f : String)
deriving DecidableEq

/-- The environment of one background run: the probed duration and the
outcomes of every external-tool and blob-store invocation.  `chunkOk i` says
whether the two ffmpeg invocations of chunk task `i` (0-based) succeed;
`transcribeOk i` whether whisper succeeds on chunk `i`; `transcripts i` is the
raw subtitle text whisper produces for chunk `i`; `unlinkOk f` whether
deleting file `f` succeeds. -/
structure PipelineEnv where
  totalDuration : ℚ
  chunkOk : ℕ → Bool
  transcribeOk : ℕ → Bool
  transcripts : ℕ → String
  hasThumbnail : Bool
  burnOk : Bool
  uploadVideoOk : Bool
  uploadThumbOk : Bool
  unlinkOk : String → Bool

/-- Result of one background run: the final Job record, the ordered event
trace, the files the run created on disk, and the files actually deleted. -/
structure PipeResult where
  job : Job
  events : List FsEv
  created : List String
  deleted : List String
deriving DecidableEq

/-- `chunk-(index).mp4` (videoRouter.js:281). -/
def chunkVideoFile (i : ℤ) : String := "chunk-" ++ toString i ++ ".mp4"

/-- `chunk-(index).wav` (videoRouter.js:282). -/
def chunkAudioFile (i : ℤ) : String := "chunk-" ++ toString i ++ ".wav"

/-- `tasks.slice(i, i + limit)` batching of a task list (videoRouter.js:300-301).
With limit 0 the JS loop would never terminate; the model behaves as limit 1. -/
def toBatches {α : Type} (limit : ℕ) : List α → List (List α)
  | [] => []
  | x :: xs => (x :: xs.take (limit - 1)) :: toBatches limit (xs.drop (limit - 1))
termination_by l => l.length
decreasing_by
  simp [List.length_drop]
  omega

/-- The chunk-creation batches (videoRouter.js:300-306): batches run in order;
inside a batch every task runs to completion (`Promise.all` does not cancel
in-flight siblings), each successful task creating its two files; the first
batch containing a failure makes `createOptimizedVideoChunks` throw, so later
batches never start.  Returns the created files and whether every batch
succeeded. -/
def chunkBatchesRun (ok : ℕ → Bool) : List (List (ℕ × ChunkTask)) → List String × Bool
  | [] => ([], true)
  | b :: bs =>
    let files := (b.filter fun p => ok p.1).flatMap fun p =>
      [chunkVideoFile p.2.index, chunkAudioFile p.2.index]
    if b.all fun p => ok p.1 then
      let r := chunkBatchesRun ok bs
      (files ++ r.1, r.2)
    else (files, false)

/-- The chunk-creation phase of a run: plan segments from the probed duration
(chunk length 60, videoRouter.js:253-275), then execute the extraction tasks
in batches of 4. -/
def chunkPhase (env : PipelineEnv) : List String × Bool :=
  chunkBatchesRun env.chunkOk (toBatches 4 (planSegments env.totalDuration 60).enum)

/-- `cleanupFiles(files)` (videoRouter.js:102-108): attempt `unlink` on every
file, swallowing every failure (`.catch(() => ...)`), so the call itself always
succeeds; the second component is the set of files actually deleted. -/
def cleanupFiles (unlinkOk : String → Bool) (files : List String) :
    List FsEv × List String :=
  (files.map FsEv.unlink, files.filter unlinkOk)

/-- The catch branch of the background task (videoRouter.js:232-237): set the
Job status to `failed`, save, then best-effort-delete the files tracked in
`bgTempFiles`. -/
def failResult (unlinkOk : String → Bool) (job : Job) (bgTemp : List String)
    (created : List String) : PipeResult :=
  { job := { job with status := JobStatus.failed }
    events := FsEv.save JobStatus.failed :: (cleanupFiles unlinkOk bgTemp).1
    created := created
    deleted := (cleanupFiles unlinkOk bgTemp).2 }

/-- The `bgTempFiles` list after a successful chunking stage
(videoRouter.js:176-185): the uploaded video, then all chunk videos, then all
chunk audio files. -/
def bgTempAll (chunks : List ChunkTask) : List String :=
  "upload" :: ((chunks.map fun c => chunkVideoFile c.index)
    ++ chunks.map fun c => chunkAudioFile c.index)

/-- The background processing task of `POST /upload` (videoRouter.js:175-238):
chunk, transcribe (adjusting each chunk's timestamps by its planned start),
merge with `combineSubtitles`, burn in, upload, then update the Job to
`processed`; any stage failure lands in the catch branch, which sets `failed`
and cleans up the files tracked so far.  File names are abstracted to fixed
labels; the chunk files use the planner's 1-based indices. -/
def runPipeline (env : PipelineEnv) (job : Job) : PipeResult :=
  let chunks := planSegments env.totalDuration 60
  let created0 := "upload" :: (chunkPhase env).1
  if (chunkPhase env).2 then
    if (List.range chunks.length).all env.transcribeOk then
      let subs := combineSubtitles (chunks.enum.map fun p =>
        adjustSubtitlesTiming (env.transcripts p.1) p.2.startTime)
      if env.burnOk then
        if env.uploadVideoOk then
          if env.hasThumbnail && !env.uploadThumbOk then
            failResult env.unlinkOk job
              (bgTempAll chunks ++ ["combined.srt", "final.mp4"])
              (created0 ++ ["combined.srt", "final.mp4"])
          else
            { job := { status := JobStatus.processed
                       videoUrl := some "s3-video"
                       thumbnailUrl := if env.hasThumbnail then some "s3-thumb" else none
                       subtitles := subs }
              events := FsEv.save JobStatus.processed ::
                (cleanupFiles env.unlinkOk
                  (bgTempAll chunks ++ ["combined.srt", "final.mp4"])).1
              created := created0 ++ ["combined.srt", "final.mp4"]
              deleted := (cleanupFiles env.unlinkOk
                (bgTempAll chunks ++ ["combined.srt", "final.mp4"])).2 }
        else
          failResult env.unlinkOk job
            (bgTempAll chunks ++ ["combined.srt", "final.mp4"])
            (created0 ++ ["combined.srt", "final.mp4"])
      else
        failResult env.unlinkOk job (bgTempAll chunks ++ ["combined.srt"])
          (created0 ++ ["combined.srt"])
    else
      failResult env.unlinkOk job (bgTempAll chunks) created0
  else
    failResult env.unlinkOk job ["upload"] created0

/-- Whether every stage of the processing body succeeds. -/
def stagesOk (env : PipelineEnv) : Bool :=
  (chunkPhase env).2
  && (List.range (planSegments env.totalDuration 60).length).all env.transcribeOk
  && env.burnOk && env.uploadVideoOk
  && (!env.hasThumbnail || env.uploadThumbOk)

/-- A freshly created Job record (videoRouter.js:146-161): status
`processing`, no media references, empty subtitles. -/
def baseJob : Job :=
  { status := JobStatus.processing, videoUrl := none, thumbnailUrl := none, subtitles := "" }

/-- A run on a 90-second video whose second extraction task fails: both tasks
are in the first batch of 4, so the first task's files are created, then
`createOptimizedVideoChunks` throws. -/
def cexEnv : PipelineEnv :=
  { totalDuration := 90
    chunkOk := fun i => i == 0
    transcribeOk := fun _ => true
    transcripts := fun _ => ""
    hasThumbnail := false
    burnOk := true
    uploadVideoOk := true
    uploadThumbOk := true
    unlinkOk := fun _ => true }

/-- A run on a 90-second video where every stage succeeds. -/
def okEnv : PipelineEnv :=
  { totalDuration := 90
    chunkOk := fun _ => true
    transcribeOk := fun _ => true
    transcripts := fun _ => ""
    hasThumbnail := false
    burnOk := true
    uploadVideoOk := true
    uploadThumbOk := true
    unlinkOk := fun _ => true }

/-- A run whose burn-in stage fails before any chunk is planned (duration 0). -/
def burnFailEnv : PipelineEnv :=
  { totalDuration := 0
    chunkOk := fun _ => true
    transcribeOk := fun _ => true
    transcripts := fun _ => ""
    hasThumbnail := false
    burnOk := false
    uploadVideoOk := true
    uploadThumbOk := true
    unlinkOk := fun _ => true }

end VideoPipeline

namespace VideoPipeline

/-! Basic facts about digits, trimming and line splitting. -/

theorem digitChar_facts : ∀ m, m < 10 →
    (Nat.digitChar m).isDigit = true ∧ (Nat.digitChar m).isWhitespace = false
    ∧ Nat.digitChar m ≠ ':' ∧ Nat.digitChar m ≠ '\n'
    ∧ digitVal (Nat.digitChar m) = m := by
  decide

theorem dropWhile_eq_nil_of_all {p : Char → Bool} :
    ∀ l : List Char, (∀ c ∈ l, p c = true) → l.dropWhile p = [] := by
  intro l
  induction l with
  | nil => intro _; rfl
  | cons c cs ih =>
    intro h
    rw [List.dropWhile_cons, if_pos (h c (by simp))]
    exact ih fun d hd => h d (by simp [hd])

theorem dropWhile_eq_self_of_all {p : Char → Bool} :
    ∀ l : List Char, (∀ c ∈ l, p c = false) → l.dropWhile p = l := by
  intro l
  cases l with
  | nil => intro _; rfl
  | cons c cs =>
    intro h
    rw [List.dropWhile_cons, if_neg]
    simp [h c (by simp)]

theorem trimChars_all_nonws (l : List Char)
    (h : ∀ c ∈ l, c.isWhitespace = false) : trimChars l = l := by
  unfold trimChars
  rw [dropWhile_eq_self_of_all l h,
    dropWhile_eq_self_of_all l.reverse (fun c hc => h c (List.mem_reverse.mp hc)),
    List.reverse_reverse]

theorem trimChars_cons_ws (c : Char) (l : List Char) (h : c.isWhitespace = true) :
    trimChars (c :: l) = trimChars l := by
  unfold trimChars
  rw [List.dropWhile_cons, if_pos h]

theorem trimChars_append_ws (X W : List Char)
    (hW : ∀ c ∈ W, c.isWhitespace = true) : trimChars (X ++ W) = trimChars X := by
  induction X with
  | nil =>
    simp only [List.nil_append]
    unfold trimChars
    rw [dropWhile_eq_nil_of_all W hW]
    rfl
  | cons c X ih =>
    by_cases hc : c.isWhitespace = true
    · rw [List.cons_append, trimChars_cons_ws c _ hc, trimChars_cons_ws c _ hc, ih]
    · unfold trimChars
      rw [List.cons_append, List.dropWhile_cons, if_neg hc, List.dropWhile_cons, if_neg hc]
      rw [← List.cons_append, List.reverse_append, List.dropWhile_append,
        dropWhile_eq_nil_of_all W.reverse (fun d hd => hW d (List.mem_reverse.mp hd))]
      simp

theorem splitNl_ne_nil : ∀ cs : List Char, splitNl cs ≠ [] := by
  intro cs
  induction cs with
  | nil => simp [splitNl]
  | cons c cs ih =>
    rw [splitNl]
    by_cases hc : c = '\n'
    · simp [hc]
    · simp only [if_neg hc]
      cases h : splitNl cs with
      | nil => simp
      | cons l ls => simp

theorem splitNl_no_nl : ∀ l : List Char, '\n' ∉ l → splitNl l = [l] := by
  intro l
  induction l with
  | nil => intro _; rfl
  | cons c cs ih =>
    intro h
    have hc : c ≠ '\n' := fun hh => h (by simp [hh])
    rw [splitNl, if_neg hc, ih (fun hh => h (by simp [hh]))]

theorem splitNl_append_nl (l rest : List Char) (h : '\n' ∉ l) :
    splitNl (l ++ '\n' :: rest) = l :: splitNl rest := by
  induction l with
  | nil => simp [splitNl]
  | cons c cs ih =>
    have hc : c ≠ '\n' := fun hh => h (by simp [hh])
    rw [List.cons_append, splitNl, if_neg hc,
      ih (fun hh => h (by simp [hh]))]

theorem splitNl_joinNl : ∀ ls : List (List Char), ls ≠ [] →
    (∀ l ∈ ls, '\n' ∉ l) → splitNl (joinNl ls) = ls := by
  intro ls
  induction ls with
  | nil => intro h; exact absurd rfl h
  | cons l ls ih =>
    intro _ h
    cases ls with
    | nil => exact splitNl_no_nl l (h l (by simp))
    | cons l2 ls2 =>
      have hih := ih (List.cons_ne_nil l2 ls2) fun x hx => h x (by simp [hx])
      have hjoin : joinNl (l :: l2 :: ls2) = l ++ '\n' :: joinNl (l2 :: ls2) := rfl
      rw [hjoin, splitNl_append_nl l _ (h l (by simp)), hih]

end VideoPipeline

namespace VideoPipeline

/-! Decimal numerals: the characters of `Nat.repr` are digits, and two- and
three-digit paddings take an explicit form. -/

theorem toDigitsCore_good : ∀ (fuel n : ℕ) (acc : List Char),
    (∀ c ∈ acc, goodDigitChar c) →
    ∀ c ∈ Nat.toDigitsCore 10 fuel n acc, goodDigitChar c := by
  intro fuel
  induction fuel with
  | zero =>
    intro n acc hacc c hc
    exact hacc c hc
  | succ fuel ih =>
    intro n acc hacc c hc
    have hd : goodDigitChar (Nat.digitChar (n % 10)) := by
      have h10 : n % 10 < 10 := Nat.mod_lt _ (by norm_num)
      have hf := digitChar_facts (n % 10) h10
      exact ⟨hf.1, hf.2.1, hf.2.2.1, hf.2.2.2.1⟩
    rw [Nat.toDigitsCore] at hc
    by_cases h0 : n / 10 = 0
    · simp only [h0, if_pos rfl] at hc
      rcases List.mem_cons.mp hc with h | h
      · rw [h]; exact hd
      · exact hacc c h
    · simp only [if_neg h0] at hc
      refine ih (n / 10) (Nat.digitChar (n % 10) :: acc) ?_ c hc
      intro d hdm
      rcases List.mem_cons.mp hdm with h | h
      · rw [h]; exact hd
      · exact hacc d h

theorem natRepr_good (n : ℕ) : ∀ c ∈ (Nat.repr n).toList, goodDigitChar c :=
  toDigitsCore_good (n + 1) n [] (by intro c hc; cases hc)

theorem toDigitsCore_ne_nil : ∀ (fuel n : ℕ) (acc : List Char),
    acc ≠ [] ∨ fuel ≠ 0 → Nat.toDigitsCore 10 fuel n acc ≠ [] := by
  intro fuel
  induction fuel with
  | zero =>
    intro n acc h
    rcases h with h | h
    · exact h
    · exact absurd rfl h
  | succ fuel ih =>
    intro n acc _
    rw [Nat.toDigitsCore]
    by_cases h0 : n / 10 = 0
    · simp [h0]
    · simp only [if_neg h0]
      exact ih (n / 10) (Nat.digitChar (n % 10) :: acc) (Or.inl (by simp))

theorem natRepr_ne_nil (n : ℕ) : (Nat.repr n).toList ≠ [] :=
  toDigitsCore_ne_nil (n + 1) n [] (Or.inr (by omega))

theorem natRepr_lt_10 (n : ℕ) (h : n < 10) :
    (Nat.repr n).toList = [Nat.digitChar n] := by
  show Nat.toDigitsCore 10 (n + 1) n [] = _
  rw [Nat.toDigitsCore]
  simp [Nat.div_eq_of_lt h, Nat.mod_eq_of_lt h]

theorem natRepr_lt_100 (n : ℕ) (h1 : 10 ≤ n) (h2 : n < 100) :
    (Nat.repr n).toList = [Nat.digitChar (n / 10), Nat.digitChar (n % 10)] := by
  show Nat.toDigitsCore 10 (n + 1) n [] = _
  rw [Nat.toDigitsCore]
  have hne : ¬(n / 10 = 0) := by omega
  simp only [if_neg hne]
  obtain ⟨m, rfl⟩ : ∃ m, n = m + 1 := ⟨n - 1, by omega⟩
  rw [Nat.toDigitsCore]
  have hz : (m + 1) / 10 / 10 = 0 := by omega
  have hm : (m + 1) / 10 % 10 = (m + 1) / 10 := by omega
  simp [hz, hm]

theorem natRepr_lt_1000 (n : ℕ) (h1 : 100 ≤ n) (h2 : n < 1000) :
    (Nat.repr n).toList =
      [Nat.digitChar (n / 100), Nat.digitChar (n / 10 % 10), Nat.digitChar (n % 10)] := by
  show Nat.toDigitsCore 10 (n + 1) n [] = _
  rw [Nat.toDigitsCore]
  have hne : ¬(n / 10 = 0) := by omega
  simp only [if_neg hne]
  obtain ⟨m, rfl⟩ : ∃ m, n = m + 1 := ⟨n - 1, by omega⟩
  rw [Nat.toDigitsCore]
  have hne2 : ¬((m + 1) / 10 / 10 = 0) := by omega
  simp only [if_neg hne2]
  obtain ⟨k, hk⟩ : ∃ k, m = k + 1 := ⟨m - 1, by omega⟩
  subst hk
  rw [Nat.toDigitsCore]
  have hz : (k + 1 + 1) / 10 / 10 / 10 = 0 := by omega
  have ha : (k + 1 + 1) / 10 / 10 % 10 = (k + 1 + 1) / 100 := by omega
  have hb : (k + 1 + 1) / 10 / 10 = (k + 1 + 1) / 100 := by omega
  have hz2 : (k + 1 + 1) / 100 / 10 = 0 := by omega
  have ha2 : (k + 1 + 1) / 100 % 10 = (k + 1 + 1) / 100 := by omega
  simp [hz, ha, hb, hz2, ha2]

theorem intChars_ofNat (k : ℕ) : intChars ((k : ℕ) : ℤ) = (Nat.repr k).toList := rfl

theorem pad2_eq (k : ℕ) (hk : k ≤ 99) :
    jsPadStart 2 (Nat.repr k).toList = [Nat.digitChar (k / 10), Nat.digitChar (k % 10)] := by
  rcases lt_or_ge k 10 with h | h
  · rw [natRepr_lt_10 k h]
    have h1 : k / 10 = 0 := by omega
    have h2 : k % 10 = k := by omega
    rw [h1, h2]
    rfl
  · rw [natRepr_lt_100 k h (by omega)]
    rfl

theorem pad3_eq (k : ℕ) (hk : k ≤ 999) :
    jsPadStart 3 (Nat.repr k).toList =
      [Nat.digitChar (k / 100), Nat.digitChar (k / 10 % 10), Nat.digitChar (k % 10)] := by
  rcases lt_or_ge k 10 with h | h
  · rw [natRepr_lt_10 k h]
    have h1 : k / 100 = 0 := by omega
    have h2 : k / 10 % 10 = 0 := by omega
    have h3 : k % 10 = k := by omega
    rw [h1, h2, h3]
    rfl
  · rcases lt_or_ge k 100 with h' | h'
    · rw [natRepr_lt_100 k h h']
      have h1 : k / 100 = 0 := by omega
      have h2 : k / 10 % 10 = k / 10 := by omega
      rw [h1, h2]
      rfl
    · rw [natRepr_lt_1000 k h' (by omega)]
      rfl

/-! Evaluating the timestamp formatter on non-negative millisecond-grid
values. -/

theorem jsTrunc_of_nonneg (q : ℚ) (h : 0 ≤ q) : jsTrunc q = ⌊q⌋ := by
  rw [jsTrunc, if_pos h]

theorem floor_mul_add (N : ℤ) (b r : ℚ) (hb : 0 < b) (h0 : 0 ≤ r) (h1 : r < b) :
    ⌊((N : ℚ) * b + r) / b⌋ = N := by
  have hbne : b ≠ 0 := ne_of_gt hb
  have he : ((N : ℚ) * b + r) / b = r / b + (N : ℚ) := by
    rw [add_div, mul_div_assoc, div_self hbne, mul_one, add_comm]
  rw [he, Int.floor_add_int, Int.floor_eq_zero_iff.mpr, zero_add]
  exact Set.mem_Ico.mpr ⟨div_nonneg h0 hb.le, (div_lt_one hb).mpr h1⟩

theorem jsMod_eval (t b : ℚ) (N : ℤ) (r : ℚ) (hb : 0 < b) (hN : 0 ≤ N)
    (h0 : 0 ≤ r) (h1 : r < b) (ht : t = (N : ℚ) * b + r) : jsMod t b = r := by
  have htn : 0 ≤ t := by
    have hNb : (0 : ℚ) ≤ (N : ℚ) * b := mul_nonneg (by exact_mod_cast hN) hb.le
    rw [ht]
    linarith
  have hfl : ⌊t / b⌋ = N := by
    rw [ht]
    exact floor_mul_add N b r hb h0 h1
  rw [jsMod, jsTrunc_of_nonneg _ (div_nonneg htn hb.le), hfl, ht]
  ring

theorem floor_grid_div (m ms b : ℕ) (hb : 0 < b) (hms : ms ≤ 999) :
    ⌊((m : ℚ) + (ms : ℚ) / 1000) / (b : ℚ)⌋ = ((m / b : ℕ) : ℤ) := by
  have hbq : (0 : ℚ) < (b : ℚ) := by exact_mod_cast hb
  have hf0 : (0 : ℚ) ≤ (ms : ℚ) / 1000 := by positivity
  have hf1 : (ms : ℚ) / 1000 < 1 := by
    rw [div_lt_one (by norm_num)]
    exact_mod_cast Nat.lt_succ_of_le hms
  have key : (b * (m / b) + m % b : ℕ) = m := Nat.div_add_mod m b
  have keyq : ((m / b : ℕ) : ℚ) * (b : ℚ) + ((m % b : ℕ) : ℚ) = (m : ℚ) := by
    have h2 : ((b * (m / b) + m % b : ℕ) : ℚ) = (m : ℚ) := by exact_mod_cast key
    push_cast at h2
    linarith
  have hmod : ((m % b : ℕ) : ℚ) + (ms : ℚ) / 1000 < (b : ℚ) := by
    have h5 : m % b < b := Nat.mod_lt m hb
    have h6 : ((m % b : ℕ) : ℚ) + 1 ≤ (b : ℚ) := by exact_mod_cast h5
    linarith
  have ht : (m : ℚ) + (ms : ℚ) / 1000
      = (((m / b : ℕ) : ℤ) : ℚ) * (b : ℚ) + (((m % b : ℕ) : ℚ) + (ms : ℚ) / 1000) := by
    rw [Int.cast_natCast]
    linarith
  rw [ht]
  exact floor_mul_add _ _ _ hbq (by positivity) hmod

theorem jsMod_grid (m ms b : ℕ) (hb : 0 < b) (hms : ms ≤ 999) :
    jsMod ((m : ℚ) + (ms : ℚ) / 1000) (b : ℚ) = ((m % b : ℕ) : ℚ) + (ms : ℚ) / 1000 := by
  have hbq : (0 : ℚ) < (b : ℚ) := by exact_mod_cast hb
  have hf0 : (0 : ℚ) ≤ (ms : ℚ) / 1000 := by positivity
  have hf1 : (ms : ℚ) / 1000 < 1 := by
    rw [div_lt_one (by norm_num)]
    exact_mod_cast Nat.lt_succ_of_le hms
  have key : (b * (m / b) + m % b : ℕ) = m := Nat.div_add_mod m b
  have keyq : ((m / b : ℕ) : ℚ) * (b : ℚ) + ((m % b : ℕ) : ℚ) = (m : ℚ) := by
    have h2 : ((b * (m / b) + m % b : ℕ) : ℚ) = (m : ℚ) := by exact_mod_cast key
    push_cast at h2
    linarith
  have hmod : ((m % b : ℕ) : ℚ) + (ms : ℚ) / 1000 < (b : ℚ) := by
    have h5 : m % b < b := Nat.mod_lt m hb
    have h6 : ((m % b : ℕ) : ℚ) + 1 ≤ (b : ℚ) := by exact_mod_cast h5
    linarith
  refine jsMod_eval _ _ ((m / b : ℕ) : ℤ) _ hbq (by positivity) (by positivity)
    hmod ?_
  rw [Int.cast_natCast]
  linarith

theorem fmtHours_grid (n ms : ℕ) (hms : ms ≤ 999) :
    fmtHours ((n : ℚ) + (ms : ℚ) / 1000) = ((n / 3600 : ℕ) : ℤ) := by
  have h := floor_grid_div n ms 3600 (by norm_num) hms
  rw [fmtHours]
  norm_num at h ⊢
  exact h

theorem fmtMinutes_grid (n ms : ℕ) (hms : ms ≤ 999) :
    fmtMinutes ((n : ℚ) + (ms : ℚ) / 1000) = ((n % 3600 / 60 : ℕ) : ℤ) := by
  have hm := jsMod_grid n ms 3600 (by norm_num) hms
  have h := floor_grid_div (n % 3600) ms 60 (by norm_num) hms
  rw [fmtMinutes]
  norm_num at hm h ⊢
  rw [hm]
  exact h

theorem floor_cast_add_fract (k : ℕ) (f : ℚ) (h0 : 0 ≤ f) (h1 : f < 1) :
    ⌊(k : ℚ) + f⌋ = (k : ℤ) := by
  rw [add_comm, show ((k : ℕ) : ℚ) = (((k : ℕ) : ℤ) : ℚ) from by push_cast; ring,
    Int.floor_add_int, Int.floor_eq_zero_iff.mpr (Set.mem_Ico.mpr ⟨h0, h1⟩), zero_add]

theorem fmtSeconds_grid (n ms : ℕ) (hms : ms ≤ 999) :
    fmtSeconds ((n : ℚ) + (ms : ℚ) / 1000) = ((n % 60 : ℕ) : ℤ) := by
  have hf0 : (0 : ℚ) ≤ (ms : ℚ) / 1000 := by positivity
  have hf1 : (ms : ℚ) / 1000 < 1 := by
    rw [div_lt_one (by norm_num)]
    exact_mod_cast Nat.lt_succ_of_le hms
  have hm := jsMod_grid n ms 60 (by norm_num) hms
  rw [show ((60 : ℕ) : ℚ) = (60 : ℚ) from by norm_num] at hm
  rw [fmtSeconds, hm, floor_cast_add_fract _ _ hf0 hf1]

theorem fmtMillis_grid (n ms : ℕ) (hms : ms ≤ 999) :
    fmtMillis ((n : ℚ) + (ms : ℚ) / 1000) = (ms : ℤ) := by
  have hf0 : (0 : ℚ) ≤ (ms : ℚ) / 1000 := by positivity
  have hf1 : (ms : ℚ) / 1000 < 1 := by
    rw [div_lt_one (by norm_num)]
    exact_mod_cast Nat.lt_succ_of_le hms
  have hm : jsMod ((n : ℚ) + (ms : ℚ) / 1000) 1 = (ms : ℚ) / 1000 := by
    refine jsMod_eval _ _ (n : ℤ) _ (by norm_num) (by positivity) hf0 hf1 ?_
    push_cast
    ring
  rw [fmtMillis, hm, div_mul_cancel₀ _ (by norm_num : (1000 : ℚ) ≠ 0), Int.floor_natCast]

end VideoPipeline

namespace VideoPipeline

/-! The canonical rendering round-trips through the regex matcher, and the
formatter reproduces canonical renderings on the millisecond grid. -/

theorem take2_digitChars (x y : ℕ) (hx : x < 10) (hy : y < 10) (rest : List Char) :
    take2 (Nat.digitChar x :: Nat.digitChar y :: rest) = some (10 * x + y, rest) := by
  have fx := digitChar_facts x hx
  have fy := digitChar_facts y hy
  rw [take2, if_pos ⟨fx.1, fy.1⟩, fx.2.2.2.2, fy.2.2.2.2]

theorem take3_digitChars (x y z : ℕ) (hx : x < 10) (hy : y < 10) (hz : z < 10)
    (rest : List Char) :
    take3 (Nat.digitChar x :: Nat.digitChar y :: Nat.digitChar z :: rest)
      = some (100 * x + 10 * y + z, rest) := by
  have fx := digitChar_facts x hx
  have fy := digitChar_facts y hy
  have fz := digitChar_facts z hz
  rw [take3, if_pos ⟨fx.1, fy.1, fz.1⟩, fx.2.2.2.2, fy.2.2.2.2, fz.2.2.2.2]

theorem takeLit_self (c : Char) (rest : List Char) :
    takeLit c (c :: rest) = some rest := by
  rw [takeLit, if_pos rfl]

theorem matchTime_canon (f : Ts) (hf : f.inRange) (rest : List Char) :
    matchTime (canonTime f ++ rest) = some (f, rest) := by
  obtain ⟨hh, hm, hs, hms⟩ := hf
  rw [canonTime]
  simp only [List.cons_append, List.nil_append]
  rw [matchTime, take2_digitChars _ _ (by omega) (by omega)]
  simp only
  rw [takeLit_self]
  simp only
  rw [take2_digitChars _ _ (by omega) (by omega)]
  simp only
  rw [takeLit_self]
  simp only
  rw [take2_digitChars _ _ (by omega) (by omega)]
  simp only
  rw [takeLit_self]
  simp only
  rw [take3_digitChars _ _ _ (by omega) (by omega) (by omega)]
  simp only
  have e1 : 10 * (f.h / 10) + f.h % 10 = f.h := by omega
  have e2 : 10 * (f.m / 10) + f.m % 10 = f.m := by omega
  have e3 : 10 * (f.s / 10) + f.s % 10 = f.s := by omega
  have e4 : 100 * (f.ms / 100) + 10 * (f.ms / 10 % 10) + f.ms % 10 = f.ms := by omega
  rw [e1, e2, e3, e4]

theorem matchTsAt_canon (a b : Ts) (ha : a.inRange) (hb : b.inRange) :
    matchTsAt (canonTsLine a b) = some (a, b) := by
  rw [canonTsLine, List.append_assoc, matchTsAt, matchTime_canon a ha]
  simp only
  have harrow : matchArrow ([' ', '-', '-', '>', ' '] ++ canonTime b)
      = some (canonTime b) := by
    have hws : skipWs ([' ', '-', '-', '>', ' '] ++ canonTime b)
        = '-' :: '-' :: '>' :: ' ' :: canonTime b := by
      simp [skipWs, List.dropWhile]
    rw [matchArrow, hws, takeLit_self]
    simp only
    rw [takeLit_self]
    simp only
    rw [takeLit_self]
    simp only
    have hb0 := digitChar_facts (b.h / 10) (by obtain ⟨h1, -, -, -⟩ := hb; omega)
    rw [show skipWs (' ' :: canonTime b) = canonTime b by
      rw [canonTime]
      simp [skipWs, List.dropWhile, hb0.2.1]]
  rw [harrow]
  simp only
  have := matchTime_canon b hb []
  rw [List.append_nil] at this
  rw [this]

theorem findTs_canon (a b : Ts) (ha : a.inRange) (hb : b.inRange) :
    findTs (canonTsLine a b) = some (a, b) := by
  have hm := matchTsAt_canon a b ha hb
  rw [canonTsLine, canonTime] at hm ⊢
  simp only [List.cons_append] at hm ⊢
  rw [findTs, hm]
  rfl

theorem matchTime_digits_none : ∀ cs : List Char,
    (∀ c ∈ cs, goodDigitChar c) → matchTime cs = none := by
  intro cs h
  match cs with
  | [] => rfl
  | [a] => rfl
  | a :: b :: rest =>
    by_cases hdig : a.isDigit = true ∧ b.isDigit = true
    · have h1 : take2 (a :: b :: rest) = some (10 * digitVal a + digitVal b, rest) := by
        rw [take2, if_pos hdig]
      cases rest with
      | nil => simp [matchTime, h1, takeLit]
      | cons c rest' =>
        have hc : c ≠ ':' := (h c (by simp)).2.2.1
        simp [matchTime, h1, takeLit, hc]
    · have h1 : take2 (a :: b :: rest) = none := by rw [take2, if_neg hdig]
      simp [matchTime, h1]

theorem matchTsAt_digits_none (cs : List Char)
    (h : ∀ c ∈ cs, goodDigitChar c) : matchTsAt cs = none := by
  rw [matchTsAt, matchTime_digits_none cs h]

theorem findTs_digits_none : ∀ cs : List Char,
    (∀ c ∈ cs, goodDigitChar c) → findTs cs = none := by
  intro cs
  induction cs with
  | nil => intro _; rfl
  | cons c cs ih =>
    intro h
    rw [findTs, matchTsAt_digits_none _ h, ih fun d hd => h d (by simp [hd])]
    rfl

theorem toSeconds_offset (f : Ts) (o : ℕ) :
    offsetTime f.toSeconds (o : ℚ)
      = ((3600 * f.h + 60 * f.m + f.s + o : ℕ) : ℚ) + (f.ms : ℚ) / 1000 := by
  rw [offsetTime, Ts.toSeconds]
  push_cast
  ring

theorem renderTime_grid (f : Ts) (o : ℕ) (hms : f.ms ≤ 999)
    (htot : 3600 * f.h + 60 * f.m + f.s + o ≤ 359999) :
    renderTime (offsetTime f.toSeconds (o : ℚ)) = canonTime (shiftTs o f) := by
  rw [toSeconds_offset]
  rw [renderTime, fmtHours_grid _ _ hms, fmtMinutes_grid _ _ hms,
    fmtSeconds_grid _ _ hms, fmtMillis_grid _ _ hms]
  rw [intChars_ofNat, intChars_ofNat, intChars_ofNat,
    show (f.ms : ℤ) = ((f.ms : ℕ) : ℤ) from rfl, intChars_ofNat]
  rw [pad2_eq _ (by omega), pad2_eq _ (by omega), pad2_eq _ (by omega),
    pad3_eq _ (by omega)]
  rw [canonTime, shiftTs]
  simp only [List.cons_append, List.nil_append]

theorem renderTsLine_grid (a b : Ts) (o : ℕ) (hmsa : a.ms ≤ 999) (hmsb : b.ms ≤ 999)
    (hta : 3600 * a.h + 60 * a.m + a.s + o ≤ 359999)
    (htb : 3600 * b.h + 60 * b.m + b.s + o ≤ 359999) :
    renderTsLine (offsetTime a.toSeconds (o : ℚ)) (offsetTime b.toSeconds (o : ℚ))
      = canonTsLine (shiftTs o a) (shiftTs o b) := by
  rw [renderTsLine, canonTsLine, renderTime_grid a o hmsa hta,
    renderTime_grid b o hmsb htb]
  rfl

theorem shiftTs_canonical (o : ℕ) (f : Ts) (hms : f.ms ≤ 999)
    (htot : 3600 * f.h + 60 * f.m + f.s + o ≤ 359999) :
    (shiftTs o f).canonical := by
  have e1 : (shiftTs o f).h = (3600 * f.h + 60 * f.m + f.s + o) / 3600 := rfl
  have e2 : (shiftTs o f).m = (3600 * f.h + 60 * f.m + f.s + o) % 3600 / 60 := rfl
  have e3 : (shiftTs o f).s = (3600 * f.h + 60 * f.m + f.s + o) % 60 := rfl
  have e4 : (shiftTs o f).ms = f.ms := rfl
  exact ⟨by rw [e1]; omega, by rw [e2]; omega, by rw [e3]; omega, by rw [e4]; exact hms⟩

theorem canonical_inRange (f : Ts) (hf : f.canonical) : f.inRange := by
  obtain ⟨h1, h2, h3, h4⟩ := hf
  exact ⟨h1, by omega, by omega, h4⟩

theorem shiftTs_zero (f : Ts) (hf : f.canonical) : shiftTs 0 f = f := by
  obtain ⟨hh, hm, hs, hms⟩ := hf
  rw [shiftTs]
  cases f with
  | mk h m s ms =>
    simp only [Ts.mk.injEq]
    simp only at hh hm hs
    refine ⟨by omega, by omega, by omega, trivial⟩

theorem toSeconds_shiftTs (o : ℕ) (f : Ts) :
    (shiftTs o f).toSeconds = f.toSeconds + (o : ℚ) := by
  rw [shiftTs, Ts.toSeconds, Ts.toSeconds]
  have key : (3600 * f.h + 60 * f.m + f.s + o) / 3600 * 3600
      + (3600 * f.h + 60 * f.m + f.s + o) % 3600 / 60 * 60
      + (3600 * f.h + 60 * f.m + f.s + o) % 60
      = 3600 * f.h + 60 * f.m + f.s + o := by omega
  have keyq : (((3600 * f.h + 60 * f.m + f.s + o) / 3600 * 3600
      + (3600 * f.h + 60 * f.m + f.s + o) % 3600 / 60 * 60
      + (3600 * f.h + 60 * f.m + f.s + o) % 60 : ℕ) : ℚ)
      = ((3600 * f.h + 60 * f.m + f.s + o : ℕ) : ℚ) := by exact_mod_cast key
  push_cast at keyq ⊢
  linarith

theorem adjustLine_canon (o : ℕ) (a b : Ts) (ha : a.canonical) (hb : b.canonical)
    (hta : 3600 * a.h + 60 * a.m + a.s + o ≤ 359999)
    (htb : 3600 * b.h + 60 * b.m + b.s + o ≤ 359999) :
    adjustLine (o : ℚ) (canonTsLine a b) = canonTsLine (shiftTs o a) (shiftTs o b) := by
  rw [adjustLine, findTs_canon a b (canonical_inRange a ha) (canonical_inRange b hb)]
  exact renderTsLine_grid a b o ha.2.2.2 hb.2.2.2 hta htb

end VideoPipeline

namespace VideoPipeline

/-! The segment planner: explicit description of the planned chunk list. -/

theorem planLoop_eq_map (T L : ℚ) (hL : 0 < L) :
    ∀ n k, ⌈T / L⌉.toNat - k = n →
      planLoop T L ((k : ℚ) * L)
        = (List.range n).map fun j => expectedChunk T L (k + j) := by
  intro n
  induction n with
  | zero =>
    intro k hk
    have h1 : ⌈T / L⌉ ≤ (k : ℤ) := by
      have h2 : ⌈T / L⌉.toNat ≤ k := by omega
      calc ⌈T / L⌉ ≤ (⌈T / L⌉.toNat : ℤ) := Int.self_le_toNat _
        _ ≤ (k : ℤ) := by exact_mod_cast h2
    have h3 : T / L ≤ (k : ℚ) := by exact_mod_cast Int.ceil_le.mp h1
    have h4 : T ≤ (k : ℚ) * L := by
      have := (div_le_iff₀ hL).mp h3
      linarith
    rw [planLoop, dif_neg]
    · simp
    · rintro ⟨hlt, -⟩
      linarith
  | succ n ih =>
    intro k hk
    have hk1 : k < ⌈T / L⌉.toNat := by omega
    have hcz : (k : ℤ) < ⌈T / L⌉ := by
      rcases le_or_lt ⌈T / L⌉ 0 with h | h
      · rw [Int.toNat_of_nonpos h] at hk1
        omega
      · rw [← Int.toNat_of_nonneg h.le]
        exact_mod_cast hk1
    have hklt : (k : ℚ) * L < T := by
      have h5 : (k : ℚ) < T / L := by exact_mod_cast Int.lt_ceil.mp hcz
      have := (lt_div_iff₀ hL).mp h5
      linarith
    rw [planLoop, dif_pos ⟨hklt, hL⟩, List.range_succ_eq_map, List.map_cons,
      List.map_map]
    have harg : (k : ℚ) * L + L = ((k + 1 : ℕ) : ℚ) * L := by
      push_cast
      ring
    congr 1
    · have hidx : ⌊(k : ℚ) * L / L⌋ = (k : ℤ) := by
        rw [mul_div_assoc, div_self (ne_of_gt hL), mul_one, Int.floor_natCast]
      have hend : (k : ℚ) * L + L = ((k : ℚ) + 1) * L := by ring
      rw [expectedChunk]
      simp only [Nat.add_zero]
      rw [hidx, hend]
    · rw [harg, ih (k + 1) (by omega)]
      congr 1
      funext j
      simp only [Function.comp]
      congr 1
      omega

theorem planSegments_eq_map (T L : ℚ) (hL : 0 < L) :
    planSegments T L = (List.range ⌈T / L⌉.toNat).map (expectedChunk T L) := by
  have h0 : ((0 : ℕ) : ℚ) * L = 0 := by norm_num
  rw [planSegments, ← h0, planLoop_eq_map T L hL ⌈T / L⌉.toNat 0 (by omega)]
  simp

end VideoPipeline

namespace VideoPipeline

/-- C1: for positive `totalDuration` and `segmentLength`, the planning loop of
`createOptimizedVideoChunks` produces exactly `⌈totalDuration/segmentLength⌉`
chunks; chunk `i` (0-based here, so 1-based index `i+1`) spans
`[i*L, min((i+1)*L, T))`; consecutive windows are contiguous, windows are
pairwise non-overlapping, the last window ends exactly at `totalDuration`,
and the union of the windows is exactly `[0, totalDuration)`. -/
theorem planSegments_correct (T L : ℚ) (hT : 0 < T) (hL : 0 < L) :
    (planSegments T L).length = ⌈T / L⌉.toNat
    ∧ (∀ i (h : i < (planSegments T L).length),
        (planSegments T L).get ⟨i, h⟩ = expectedChunk T L i)
    ∧ (∀ i (hi : i < (planSegments T L).length) (hj : i + 1 < (planSegments T L).length),
        ((planSegments T L).get ⟨i, hi⟩).endTime
          = ((planSegments T L).get ⟨i + 1, hj⟩).startTime)
    ∧ (∀ i j (hi : i < (planSegments T L).length) (hj : j < (planSegments T L).length),
        i < j → ((planSegments T L).get ⟨i, hi⟩).endTime
          ≤ ((planSegments T L).get ⟨j, hj⟩).startTime)
    ∧ (planSegments T L).getLast?.map ChunkTask.endTime = some T
    ∧ (∀ x : ℚ, (0 ≤ x ∧ x < T) ↔
        ∃ i, ∃ hi : i < (planSegments T L).length,
          ((planSegments T L).get ⟨i, hi⟩).startTime ≤ x
            ∧ x < ((planSegments T L).get ⟨i, hi⟩).endTime) := by
  have hmap := planSegments_eq_map T L hL
  have hlen : (planSegments T L).length = ⌈T / L⌉.toNat := by
    rw [hmap, List.length_map, List.length_range]
  have hcpos : 0 < ⌈T / L⌉ := Int.ceil_pos.mpr (div_pos hT hL)
  have hcnt : 0 < ⌈T / L⌉.toNat := by omega
  have hget : ∀ i (h : i < (planSegments T L).length),
      (planSegments T L).get ⟨i, h⟩ = expectedChunk T L i := by
    intro i h
    rw [List.get_eq_getElem]
    have h' : i < ⌈T / L⌉.toNat := by omega
    simp only [hmap]
    rw [List.getElem_map, List.getElem_range]
  have hlt : ∀ i : ℕ, i < ⌈T / L⌉.toNat → (i : ℚ) * L < T := by
    intro i hi
    have hcz : (i : ℤ) < ⌈T / L⌉ := by
      rw [← Int.toNat_of_nonneg hcpos.le]
      exact_mod_cast hi
    have h5 : (i : ℚ) < T / L := by exact_mod_cast Int.lt_ceil.mp hcz
    have := (lt_div_iff₀ hL).mp h5
    linarith
  have hle : T ≤ (⌈T / L⌉.toNat : ℚ) * L := by
    have h1 : T / L ≤ (⌈T / L⌉ : ℚ) := Int.le_ceil _
    have h2 : ((⌈T / L⌉.toNat : ℤ) : ℚ) = ((⌈T / L⌉ : ℤ) : ℚ) := by
      rw [Int.toNat_of_nonneg hcpos.le]
    have h3 : T / L ≤ (⌈T / L⌉.toNat : ℚ) := by
      rw [show ((⌈T / L⌉.toNat : ℕ) : ℚ) = ((⌈T / L⌉.toNat : ℤ) : ℚ) by push_cast; ring, h2]
      exact h1
    have := (div_le_iff₀ hL).mp h3
    linarith
  refine ⟨hlen, hget, ?_, ?_, ?_, ?_⟩
  · intro i hi hj
    rw [hget i hi, hget (i + 1) hj, expectedChunk, expectedChunk]
    simp only
    have hi1 : (i + 1 : ℕ) < ⌈T / L⌉.toNat := by omega
    have : ((i : ℚ) + 1) * L < T := by
      have := hlt (i + 1) hi1
      push_cast at this
      linarith
    rw [min_eq_left this.le]
    push_cast
    ring
  · intro i j hi hj hij
    rw [hget i hi, hget j hj, expectedChunk, expectedChunk]
    simp only
    have h1 : ((i : ℚ) + 1) * L ≤ (j : ℚ) * L := by
      have hij' : ((i : ℚ) + 1) ≤ (j : ℚ) := by exact_mod_cast hij
      exact mul_le_mul_of_nonneg_right hij' hL.le
    exact le_trans (min_le_left _ _) h1
  · have hidx : ⌈T / L⌉.toNat - 1 < ⌈T / L⌉.toNat := by omega
    have hlast : (planSegments T L).getLast?
        = some (expectedChunk T L (⌈T / L⌉.toNat - 1)) := by
      rw [hmap, List.getLast?_eq_getElem?]
      simp only [List.length_map, List.length_range]
      rw [List.getElem?_map, List.getElem?_range hidx]
      rfl
    rw [hlast]
    show some ((expectedChunk T L (⌈T / L⌉.toNat - 1)).endTime) = some T
    simp only [expectedChunk, Option.some.injEq]
    have hcast : ((⌈T / L⌉.toNat - 1 : ℕ) : ℚ) + 1 = (⌈T / L⌉.toNat : ℚ) := by
      have : 1 ≤ ⌈T / L⌉.toNat := hcnt
      push_cast [Nat.cast_sub this]
      ring
    rw [hcast, min_eq_right hle]
  · intro x
    constructor
    · rintro ⟨hx0, hxT⟩
      have hdiv0 : 0 ≤ x / L := div_nonneg hx0 hL.le
      have hfl0 : 0 ≤ ⌊x / L⌋ := Int.floor_nonneg.mpr hdiv0
      set i := ⌊x / L⌋.toNat with hi
      have hiz : (i : ℤ) = ⌊x / L⌋ := Int.toNat_of_nonneg hfl0
      have hiQ : (i : ℚ) ≤ x / L := by
        have := Int.floor_le (x / L)
        rw [← hiz] at this
        exact_mod_cast this
      have hiQ2 : x / L < (i : ℚ) + 1 := by
        have := Int.lt_floor_add_one (x / L)
        rw [← hiz] at this
        exact_mod_cast this
      have hicnt : i < ⌈T / L⌉.toNat := by
        by_contra hcon
        push_neg at hcon
        have h1 : ⌈T / L⌉ ≤ (i : ℤ) := by
          calc ⌈T / L⌉ ≤ (⌈T / L⌉.toNat : ℤ) := Int.self_le_toNat _
            _ ≤ (i : ℤ) := by exact_mod_cast hcon
        have h2 : T / L ≤ (i : ℚ) := by exact_mod_cast Int.ceil_le.mp h1
        have h3 : T / L ≤ x / L := le_trans h2 hiQ
        have h4 := (div_le_iff₀ hL).mp h3
        rw [div_mul_cancel₀ x (ne_of_gt hL)] at h4
        linarith
      have hibound : i < (planSegments T L).length := by omega
      refine ⟨i, hibound, ?_, ?_⟩
      · rw [hget i hibound, expectedChunk]
        simp only
        have := (le_div_iff₀ hL).mp hiQ
        linarith
      · rw [hget i hibound, expectedChunk]
        simp only
        rw [lt_min_iff]
        refine ⟨?_, hxT⟩
        have := (div_lt_iff₀ hL).mp hiQ2
        linarith
    · rintro ⟨i, hi, hs, he⟩
      rw [hget i hi, expectedChunk] at hs he
      simp only at hs he
      constructor
      · have : (0 : ℚ) ≤ (i : ℚ) * L := mul_nonneg (by positivity) hL.le
        linarith
      · exact lt_of_lt_of_le he (min_le_right _ _)

/-- Witness for C1 at `totalDuration = 150`, `segmentLength = 60`. -/
theorem planSegments_correct_witness :
    (planSegments 150 60).length = ⌈(150 : ℚ) / 60⌉.toNat :=
  (planSegments_correct 150 60 (by norm_num) (by norm_num)).1

/-- C10: the planning loop validates nothing at its interface: for any
non-positive total duration (the loop guard `startTime < totalDuration` is
false at `startTime = 0`, exactly as it is for the `NaN` produced by
`parseFloat` on an unparsable `ffprobe` output) it returns the empty chunk
list without error, and merging the resulting empty transcription list
yields the empty subtitle track. -/
theorem planSegments_no_validation (T : ℚ) (hT : T ≤ 0) :
    planSegments T 60 = [] ∧ combineSubtitles [] = "" := by
  refine ⟨?_, rfl⟩
  rw [planSegments, planLoop, dif_neg]
  rintro ⟨h1, -⟩
  linarith

/-- Witness for C10 at `totalDuration = -1`. -/
theorem planSegments_no_validation_witness :
    planSegments (-1) 60 = [] ∧ combineSubtitles [] = "" :=
  planSegments_no_validation (-1) (by norm_num)

/-- C6: the offset operation of `adjustSubtitlesTiming`
(`newStartTotalSeconds = startTotalSeconds + offsetSeconds`) composes
additively: offsetting by `d1` and then by `d2` equals offsetting by
`d1 + d2`, for non-negative deltas. -/
theorem offsetTime_additive (t d1 d2 : ℚ) (h1 : 0 ≤ d1) (h2 : 0 ≤ d2) :
    offsetTime (offsetTime t d1) d2 = offsetTime t (d1 + d2) := by
  rw [offsetTime, offsetTime, offsetTime, add_assoc]

/-- Witness for C6 at `t = 1`, `d1 = 2`, `d2 = 3`. -/
theorem offsetTime_additive_witness :
    offsetTime (offsetTime 1 2) 3 = offsetTime 1 (2 + 3) :=
  offsetTime_additive 1 2 3 (by norm_num) (by norm_num)

end VideoPipeline

namespace VideoPipeline

/-- C5 counterexample: the round-trip claim fails on a well-formed
timestamp-range string (it matches the regex: two digits for every field,
three for milliseconds) whose minutes field is 99: re-rendering the parsed
value (offset 0) normalises 99 minutes away, so the string is not returned
unchanged. -/
theorem roundtrip_cex :
    adjustSubtitlesTiming "00:99:00,000 --> 00:99:01,000" 0
      ≠ "00:99:00,000 --> 00:99:01,000" := by
  have hrg1 : Ts.inRange ⟨0, 99, 0, 0⟩ :=
    ⟨by norm_num, by norm_num, by norm_num, by norm_num⟩
  have hrg2 : Ts.inRange ⟨0, 99, 1, 0⟩ :=
    ⟨by norm_num, by norm_num, by norm_num, by norm_num⟩
  have h1 : ("00:99:00,000 --> 00:99:01,000" : String).toList
      = canonTsLine ⟨0, 99, 0, 0⟩ ⟨0, 99, 1, 0⟩ := by decide
  have hnl : '\n' ∉ canonTsLine (⟨0, 99, 0, 0⟩ : Ts) ⟨0, 99, 1, 0⟩ := by decide
  have hadj : adjustLine 0 (canonTsLine ⟨0, 99, 0, 0⟩ ⟨0, 99, 1, 0⟩)
      = canonTsLine ⟨1, 39, 0, 0⟩ ⟨1, 39, 1, 0⟩ := by
    rw [adjustLine, findTs_canon _ _ hrg1 hrg2]
    show renderTsLine (offsetTime (Ts.toSeconds ⟨0, 99, 0, 0⟩) 0)
        (offsetTime (Ts.toSeconds ⟨0, 99, 1, 0⟩) 0)
      = canonTsLine ⟨1, 39, 0, 0⟩ ⟨1, 39, 1, 0⟩
    have hcast : (0 : ℚ) = ((0 : ℕ) : ℚ) := by norm_num
    rw [hcast, renderTsLine_grid _ _ 0 (by norm_num) (by norm_num) (by norm_num)
      (by norm_num)]
    decide
  have hmain : adjustSubtitlesTiming "00:99:00,000 --> 00:99:01,000" 0
      = String.mk (canonTsLine ⟨1, 39, 0, 0⟩ ⟨1, 39, 1, 0⟩) := by
    rw [adjustSubtitlesTiming, h1, splitNl_no_nl _ hnl]
    simp [hadj, joinNl]
  rw [hmain]
  decide

/-- C5 amended: the round-trip holds for canonical timestamp-range lines
(zero-padded fields, minutes and seconds below 60, the canonical single-space
arrow), and the formatter truncates (never rounds) sub-millisecond precision
for every non-negative time value: the rendered millisecond field is the
floor of the fractional part times 1000. -/
theorem roundtrip_canonical_trunc :
    (∀ a b : Ts, a.canonical → b.canonical →
        adjustLine 0 (canonTsLine a b) = canonTsLine a b)
    ∧ ∀ t : ℚ, 0 ≤ t →
        (fmtMillis t : ℚ) ≤ (t - (⌊t⌋ : ℚ)) * 1000
        ∧ (t - (⌊t⌋ : ℚ)) * 1000 < (fmtMillis t : ℚ) + 1 := by
  constructor
  · intro a b ha hb
    have hta : 3600 * a.h + 60 * a.m + a.s + 0 ≤ 359999 := by
      obtain ⟨h1, h2, h3, -⟩ := ha
      omega
    have htb : 3600 * b.h + 60 * b.m + b.s + 0 ≤ 359999 := by
      obtain ⟨h1, h2, h3, -⟩ := hb
      omega
    have h := adjustLine_canon 0 a b ha hb hta htb
    rw [shiftTs_zero a ha, shiftTs_zero b hb] at h
    simpa using h
  · intro t ht
    have h1 : jsTrunc (t / 1) = ⌊t⌋ := by
      rw [div_one, jsTrunc_of_nonneg t ht]
    have hmod : jsMod t 1 = t - (⌊t⌋ : ℚ) := by
      rw [jsMod, h1]
      ring
    constructor
    · rw [fmtMillis, hmod]
      exact Int.floor_le _
    · rw [fmtMillis, hmod]
      exact Int.lt_floor_add_one _

/-- Witness for the amended C5 at a concrete canonical line and `t = 3/2`. -/
theorem roundtrip_canonical_trunc_witness :
    adjustLine 0 (canonTsLine ⟨0, 0, 1, 500⟩ ⟨0, 0, 2, 0⟩)
        = canonTsLine ⟨0, 0, 1, 500⟩ ⟨0, 0, 2, 0⟩
    ∧ ((fmtMillis (3 / 2 : ℚ) : ℚ) ≤ ((3 / 2 : ℚ) - (⌊(3 / 2 : ℚ)⌋ : ℚ)) * 1000
        ∧ ((3 / 2 : ℚ) - (⌊(3 / 2 : ℚ)⌋ : ℚ)) * 1000 < (fmtMillis (3 / 2 : ℚ) : ℚ) + 1) :=
  ⟨roundtrip_canonical_trunc.1 _ _
      ⟨by norm_num, by norm_num, by norm_num, by norm_num⟩
      ⟨by norm_num, by norm_num, by norm_num, by norm_num⟩,
    roundtrip_canonical_trunc.2 (3 / 2) (by norm_num)⟩

/-- C7 counterexample: the offset operation has no negativity check.  With
`t = 5` seconds and `delta = -10`, `adjustSubtitlesTiming` returns a
malformed line with negative components (hours field `-1`) instead of
raising any error. -/
theorem offset_negative_cex :
    fmtHours (offsetTime (Ts.toSeconds ⟨0, 0, 5, 0⟩) (-10)) = -1
    ∧ adjustSubtitlesTiming "00:00:05,000 --> 00:00:06,000" (-10)
        = "-1:-1:-5,000 --> -1:-1:-4,000" := by
  constructor
  · norm_num [fmtHours, offsetTime, Ts.toSeconds]
  · have hrg1 : Ts.inRange ⟨0, 0, 5, 0⟩ :=
      ⟨by norm_num, by norm_num, by norm_num, by norm_num⟩
    have hrg2 : Ts.inRange ⟨0, 0, 6, 0⟩ :=
      ⟨by norm_num, by norm_num, by norm_num, by norm_num⟩
    have t1 : jsTrunc ((-5 : ℚ) / 3600) = 0 := by
      rw [jsTrunc, if_neg (by norm_num)]
      norm_num
    have t2 : jsTrunc ((-5 : ℚ) / 60) = 0 := by
      rw [jsTrunc, if_neg (by norm_num)]
      norm_num
    have t3 : jsTrunc ((-5 : ℚ) / 1) = -5 := by
      rw [jsTrunc, if_neg (by norm_num), div_one,
        show ((-5 : ℚ)) = ((-5 : ℤ) : ℚ) from by norm_num, Int.ceil_intCast]
    have u1 : jsTrunc ((-4 : ℚ) / 3600) = 0 := by
      rw [jsTrunc, if_neg (by norm_num)]
      norm_num
    have u2 : jsTrunc ((-4 : ℚ) / 60) = 0 := by
      rw [jsTrunc, if_neg (by norm_num)]
      norm_num
    have u3 : jsTrunc ((-4 : ℚ) / 1) = -4 := by
      rw [jsTrunc, if_neg (by norm_num), div_one,
        show ((-4 : ℚ)) = ((-4 : ℤ) : ℚ) from by norm_num, Int.ceil_intCast]
    have e1 : fmtHours (-5 : ℚ) = -1 := by norm_num [fmtHours]
    have e2 : fmtMinutes (-5 : ℚ) = -1 := by
      rw [fmtMinutes, jsMod, t1]
      norm_num
    have e3 : fmtSeconds (-5 : ℚ) = -5 := by
      rw [fmtSeconds, jsMod, t2]
      norm_num
    have e4 : fmtMillis (-5 : ℚ) = 0 := by
      rw [fmtMillis, jsMod, t3]
      norm_num
    have f1 : fmtHours (-4 : ℚ) = -1 := by norm_num [fmtHours]
    have f2 : fmtMinutes (-4 : ℚ) = -1 := by
      rw [fmtMinutes, jsMod, u1]
      norm_num
    have f3 : fmtSeconds (-4 : ℚ) = -4 := by
      rw [fmtSeconds, jsMod, u2]
      norm_num
    have f4 : fmtMillis (-4 : ℚ) = 0 := by
      rw [fmtMillis, jsMod, u3]
      norm_num
    have hr5 : renderTime (-5 : ℚ) = ("-1:-1:-5,000" : String).toList := by
      rw [renderTime, e1, e2, e3, e4]
      decide
    have hr4 : renderTime (-4 : ℚ) = ("-1:-1:-4,000" : String).toList := by
      rw [renderTime, f1, f2, f3, f4]
      decide
    have h1 : ("00:00:05,000 --> 00:00:06,000" : String).toList
        = canonTsLine ⟨0, 0, 5, 0⟩ ⟨0, 0, 6, 0⟩ := by decide
    have hnl : '\n' ∉ canonTsLine (⟨0, 0, 5, 0⟩ : Ts) ⟨0, 0, 6, 0⟩ := by decide
    have hline : adjustLine (-10) (canonTsLine ⟨0, 0, 5, 0⟩ ⟨0, 0, 6, 0⟩)
        = ("-1:-1:-5,000 --> -1:-1:-4,000" : String).toList := by
      rw [adjustLine, findTs_canon _ _ hrg1 hrg2]
      show renderTsLine (offsetTime (Ts.toSeconds ⟨0, 0, 5, 0⟩) (-10))
          (offsetTime (Ts.toSeconds ⟨0, 0, 6, 0⟩) (-10))
        = ("-1:-1:-5,000 --> -1:-1:-4,000" : String).toList
      have hv1 : offsetTime (Ts.toSeconds ⟨0, 0, 5, 0⟩) (-10) = (-5 : ℚ) := by
        norm_num [offsetTime, Ts.toSeconds]
      have hv2 : offsetTime (Ts.toSeconds ⟨0, 0, 6, 0⟩) (-10) = (-4 : ℚ) := by
        norm_num [offsetTime, Ts.toSeconds]
      rw [renderTsLine, hv1, hv2, hr5, hr4]
      decide
    have hmain : adjustSubtitlesTiming "00:00:05,000 --> 00:00:06,000" (-10)
        = String.mk (("-1:-1:-5,000 --> -1:-1:-4,000" : String).toList) := by
      rw [adjustSubtitlesTiming, h1, splitNl_no_nl _ hnl]
      simp [hline, joinNl]
    rw [hmain]
    rfl

/-- C7 amended: the offset operation performs no negativity validation and
never raises: it returns `t + delta` unconditionally, and whenever that sum
is negative the rendered hours field is negative (a malformed negative
timestamp is produced instead of a defensive error). -/
theorem offsetTime_no_negative_check (t d : ℚ) (h : offsetTime t d < 0) :
    fmtHours (offsetTime t d) < 0 := by
  rw [fmtHours]
  have hneg : offsetTime t d / 3600 < 0 := div_neg_of_neg_of_pos h (by norm_num)
  exact Int.floor_lt.mpr (by exact_mod_cast hneg)

/-- Witness for the amended C7 at `t = 5`, `delta = -10`. -/
theorem offsetTime_no_negative_check_witness :
    fmtHours (offsetTime 5 (-10)) < 0 :=
  offsetTime_no_negative_check 5 (-10) (by norm_num [offsetTime])

/-- C8 counterexample: a malformed cue block (its second line is neither an
index, nor a timestamp, nor empty — the block has no timestamp line at all)
does not raise any error and does not abort the merge: `combineSubtitles`
returns a best-effort merged track containing the malformed content
verbatim. -/
theorem combineSubtitles_malformed_cex :
    combineSubtitles ["1\nnot a timestamp\nHi"] = "1\nnot a timestamp\nHi" := by
  decide

end VideoPipeline

namespace VideoPipeline

/-! The bounded batch executor: `Promise.all` settles with the first
rejection in settle-time order, and the batching loop propagates the first
failing batch's rejection. -/

theorem firstRejected_of_no_errors {E A : Type} (rank : ℕ → ℕ) :
    ∀ (l : List (Except E A)) (base : ℕ),
      (∀ (q : ℕ) (e : E), l[q]? ≠ some (Except.error e)) →
      firstRejected rank base l = none := by
  intro l
  induction l with
  | nil => intro base _; rfl
  | cons x rest ih =>
    intro base h
    cases x with
    | error e0 => exact absurd List.getElem?_cons_zero (h 0 e0)
    | ok a =>
      rw [firstRejected]
      exact ih (base + 1) fun q e hq =>
        h (q + 1) e (by rw [List.getElem?_cons_succ]; exact hq)

theorem firstRejected_spec {E A : Type} (rank : ℕ → ℕ) :
    ∀ (l : List (Except E A)) (base : ℕ),
      (∃ (q : ℕ) (e : E), l[q]? = some (Except.error e)) →
      ∃ i e, firstRejected rank base l = some (i, e)
        ∧ base ≤ i
        ∧ l[i - base]? = some (Except.error e)
        ∧ ∀ (q : ℕ) (e' : E), l[q]? = some (Except.error e') → rank i ≤ rank (base + q) := by
  intro l
  induction l with
  | nil =>
    rintro base ⟨q, e, hq⟩
    simp at hq
  | cons x rest ih =>
    intro base hex
    cases x with
    | error e0 =>
      rw [firstRejected]
      rcases hr : firstRejected rank (base + 1) rest with _ | je
      · have hnone : ∀ (q : ℕ) (e' : E), rest[q]? ≠ some (Except.error e') := by
          intro q e' hq
          obtain ⟨i2, e2, hsome, -, -, -⟩ := ih (base + 1) ⟨q, e', hq⟩
          rw [hr] at hsome
          cases hsome
        refine ⟨base, e0, rfl, le_rfl, by simp, ?_⟩
        intro q e'' hq
        cases q with
        | zero => simpa using le_rfl
        | succ q' =>
          rw [List.getElem?_cons_succ] at hq
          exact absurd hq (hnone q' e'')
      · obtain ⟨j, e'⟩ := je
        have hex2 : ∃ (q : ℕ) (e2 : E), rest[q]? = some (Except.error e2) := by
          by_contra hcon
          push_neg at hcon
          rw [firstRejected_of_no_errors rank rest (base + 1) hcon] at hr
          cases hr
        obtain ⟨i2, e2, hsome, hle, hget, hmin⟩ := ih (base + 1) hex2
        rw [hsome] at hr
        obtain ⟨rfl, rfl⟩ : i2 = j ∧ e2 = e' := by simpa using hr
        by_cases hcmp : rank i2 < rank base
        · refine ⟨i2, e2, ?_, by omega, ?_, ?_⟩
          · show (if rank i2 < rank base then some (i2, e2) else some (base, e0))
              = some (i2, e2)
            rw [if_pos hcmp]
          · rw [show i2 - base = (i2 - (base + 1)) + 1 from by omega,
              List.getElem?_cons_succ]
            exact hget
          · intro q e'' hq
            cases q with
            | zero => simpa using hcmp.le
            | succ q' =>
              rw [List.getElem?_cons_succ] at hq
              have h2 := hmin q' e'' hq
              rw [show base + (q' + 1) = base + 1 + q' from by omega]
              exact h2
        · refine ⟨base, e0, ?_, le_rfl, by simp, ?_⟩
          · show (if rank i2 < rank base then some (i2, e2) else some (base, e0))
              = some (base, e0)
            rw [if_neg hcmp]
          intro q e'' hq
          cases q with
          | zero => simpa using le_rfl
          | succ q' =>
            rw [List.getElem?_cons_succ] at hq
            have h2 := hmin q' e'' hq
            have h3 : rank base ≤ rank i2 := le_of_not_lt hcmp
            rw [show base + (q' + 1) = base + 1 + q' from by omega]
            exact le_trans h3 h2
    | ok a =>
      rw [firstRejected]
      obtain ⟨q, e, hq⟩ := hex
      cases q with
      | zero => simp at hq
      | succ q' =>
        rw [List.getElem?_cons_succ] at hq
        obtain ⟨i2, e2, hsome, hle, hget, hmin⟩ := ih (base + 1) ⟨q', e, hq⟩
        refine ⟨i2, e2, hsome, by omega, ?_, ?_⟩
        · rw [show i2 - base = (i2 - (base + 1)) + 1 from by omega,
            List.getElem?_cons_succ]
          exact hget
        · intro q2 e'' hq2
          cases q2 with
          | zero => simp at hq2
          | succ q2' =>
            rw [List.getElem?_cons_succ] at hq2
            have h2 := hmin q2' e'' hq2
            rw [show base + (q2' + 1) = base + 1 + q2' from by omega]
            exact h2

theorem runBoundedAux_err {E A : Type} (rank : ℕ → ℕ) (m : ℕ) :
    ∀ (n : ℕ) (l : List (Except E A)) (base : ℕ), l.length ≤ n →
      (∃ (q : ℕ) (e : E), l[q]? = some (Except.error e)) →
      ∃ p e, runBoundedAux rank (m + 1) l base = Except.error (base + p, e)
        ∧ l[p]? = some (Except.error e)
        ∧ (∀ (q : ℕ) (e' : E), l[q]? = some (Except.error e') → p / (m + 1) ≤ q / (m + 1))
        ∧ (∀ (q : ℕ) (e' : E), l[q]? = some (Except.error e') → q / (m + 1) = p / (m + 1) →
            rank (base + p) ≤ rank (base + q)) := by
  intro n
  induction n with
  | zero =>
    rintro l base hl ⟨q, e, hq⟩
    have : l = [] := List.length_eq_zero.mp (by omega)
    subst this
    simp at hq
  | succ n ih =>
    intro l base hl hex
    match l with
    | [] =>
      obtain ⟨q, e, hq⟩ := hex
      simp at hq
    | o :: rest =>
      by_cases hbatch : ∃ (q : ℕ) (e2 : E), (o :: rest.take m)[q]? = some (Except.error e2)
      · obtain ⟨i, e, hsome, hle, hget, hmin⟩ :=
          firstRejected_spec rank (o :: rest.take m) base hbatch
        have hpa : promiseAll rank base (o :: rest.take m) = Except.error (i, e) := by
          simp only [promiseAll, hsome]
        have htk : (o :: rest.take m) = (o :: rest).take (m + 1) :=
          List.take_succ_cons.symm
        rw [htk, List.getElem?_take] at hget
        have hlt : i - base < m + 1 := by
          by_contra hcon
          rw [if_neg hcon] at hget
          cases hget
        rw [if_pos hlt] at hget
        refine ⟨i - base, e, ?_, hget, ?_, ?_⟩
        · rw [runBoundedAux]
          simp only [Nat.add_sub_cancel, hpa]
          rw [show base + (i - base) = i from by omega]
        · intro q e' hq
          rw [Nat.div_eq_of_lt hlt]
          exact Nat.zero_le _
        · intro q e' hq hdiv
          have hq0 : q / (m + 1) = 0 := by
            rw [hdiv, Nat.div_eq_of_lt hlt]
          have hqlt : q < m + 1 := (Nat.div_eq_zero_iff (by omega)).mp hq0
          have hbq : (o :: rest.take m)[q]? = some (Except.error e') := by
            rw [htk, List.getElem?_take, if_pos hqlt]
            exact hq
          rw [show base + (i - base) = i from by omega]
          exact hmin q e' hbq
      · push_neg at hbatch
        have hpa : promiseAll rank base (o :: rest.take m)
            = Except.ok ((o :: rest.take m).filterMap Except.toOption) := by
          simp only [promiseAll,
            firstRejected_of_no_errors rank (o :: rest.take m) base hbatch]
        obtain ⟨q, e, hq⟩ := hex
        have htk : (o :: rest.take m) = (o :: rest).take (m + 1) :=
          List.take_succ_cons.symm
        have hq1 : m + 1 ≤ q := by
          by_contra hcon
          push_neg at hcon
          apply hbatch q e
          rw [htk, List.getElem?_take, if_pos hcon]
          exact hq
        have hqlen : q < (o :: rest).length := by
          by_contra hcon
          push_neg at hcon
          rw [List.getElem?_eq_none hcon] at hq
          cases hq
        have hrlen : m + 1 ≤ rest.length := by
          simp only [List.length_cons] at hqlen
          omega
        have hbt : (rest.take m).length = m := by
          rw [List.length_take]
          exact min_eq_left (by omega)
        have hrq : rest[q - 1]? = some (Except.error e) := by
          have h2 := hq
          rw [show q = (q - 1) + 1 from by omega, List.getElem?_cons_succ] at h2
          exact h2
        have hex2 : ∃ (q2 : ℕ) (e2 : E), (rest.drop m)[q2]? = some (Except.error e2) := by
          refine ⟨q - 1 - m, e, ?_⟩
          rw [List.getElem?_drop, show m + (q - 1 - m) = q - 1 from by omega]
          exact hrq
        obtain ⟨p', e2, hrun, hget2, hmin3, hmin4⟩ :=
          ih (rest.drop m) (base + 1 + (rest.take m).length)
            (by simp only [List.length_drop]; simp only [List.length_cons] at hl; omega)
            hex2
        have hbase : base + 1 + (rest.take m).length = base + (m + 1) := by
          rw [hbt]
          omega
        refine ⟨m + 1 + p', e2, ?_, ?_, ?_, ?_⟩
        · have hidx : base + 1 + (rest.take m).length + p' = base + (m + 1 + p') := by
            rw [hbt]
            omega
          rw [runBoundedAux]
          simp only [Nat.add_sub_cancel, hpa, hrun, hidx]
        · rw [show m + 1 + p' = (m + p') + 1 from by omega, List.getElem?_cons_succ]
          rw [List.getElem?_drop] at hget2
          rw [show m + p' = m + p' from rfl]
          exact hget2
        · intro q2 e' hq2
          have hq2ge : m + 1 ≤ q2 := by
            by_contra hcon
            push_neg at hcon
            apply hbatch q2 e'
            rw [htk, List.getElem?_take, if_pos hcon]
            exact hq2
          have hd1 : (m + 1 + p') / (m + 1) = p' / (m + 1) + 1 := by
            rw [show m + 1 + p' = p' + (m + 1) from by omega,
              Nat.add_div_right _ (by omega)]
          have hd2 : q2 / (m + 1) = (q2 - (m + 1)) / (m + 1) + 1 := by
            rw [show q2 = (q2 - (m + 1)) + (m + 1) from by omega,
              Nat.add_div_right _ (by omega)]
            rw [show (q2 - (m + 1)) + (m + 1) - (m + 1) = q2 - (m + 1) from by omega]
          have hrest : (rest.drop m)[q2 - (m + 1)]? = some (Except.error e') := by
            rw [List.getElem?_drop, show m + (q2 - (m + 1)) = q2 - 1 from by omega]
            have h2 := hq2
            rw [show q2 = (q2 - 1) + 1 from by omega, List.getElem?_cons_succ] at h2
            exact h2
          have := hmin3 (q2 - (m + 1)) e' hrest
          omega
        · intro q2 e' hq2 hdiv
          have hq2ge : m + 1 ≤ q2 := by
            by_contra hcon
            push_neg at hcon
            apply hbatch q2 e'
            rw [htk, List.getElem?_take, if_pos hcon]
            exact hq2
          have hd1 : (m + 1 + p') / (m + 1) = p' / (m + 1) + 1 := by
            rw [show m + 1 + p' = p' + (m + 1) from by omega,
              Nat.add_div_right _ (by omega)]
          have hd2 : q2 / (m + 1) = (q2 - (m + 1)) / (m + 1) + 1 := by
            rw [show q2 = (q2 - (m + 1)) + (m + 1) from by omega,
              Nat.add_div_right _ (by omega)]
            rw [show (q2 - (m + 1)) + (m + 1) - (m + 1) = q2 - (m + 1) from by omega]
          have hdiv2 : (q2 - (m + 1)) / (m + 1) = p' / (m + 1) := by omega
          have hrest : (rest.drop m)[q2 - (m + 1)]? = some (Except.error e') := by
            rw [List.getElem?_drop, show m + (q2 - (m + 1)) = q2 - 1 from by omega]
            have h2 := hq2
            rw [show q2 = (q2 - 1) + 1 from by omega, List.getElem?_cons_succ] at h2
            exact h2
          have h5 := hmin4 (q2 - (m + 1)) e' hrest hdiv2
          rw [hbase] at h5
          rw [show base + (m + 1) + p' = base + (m + 1 + p') from by omega,
            show base + (m + 1) + (q2 - (m + 1)) = base + q2 from by omega] at h5
          exact h5

/-- C3 counterexample: inside one batch, `Promise.all` rejects with the first
rejection in settle-time order, not in task-launch (index) order.  With two
rejecting tasks in a single batch and a settle order in which task 1 settles
before task 0, the batch fails with task 1's error, not task 0's. -/
theorem runBounded_settle_order_cex :
    runBounded (fun i => 1 - i)
        ([Except.error "E0", Except.error "E1"] : List (Except String ℕ)) 3
      = Except.error (1, "E1")
    ∧ ((1, "E1") : ℕ × String) ≠ (0, "E0") := by
  constructor
  · show runBoundedAux (fun i => 1 - i) 3
        [Except.error "E0", Except.error "E1"] 0 = Except.error (1, "E1")
    rw [runBoundedAux]
    rfl
  · decide

/-- C3 (amended): if at least one task fails, `runBounded` fails with a
failing task's error wrapped with that task's index; the failing task is in
the earliest batch that contains a failure (batches never launched after a
rejection), and within that batch it is the failure that settles first
(minimal `rank`), not necessarily the one with the lowest index; all other
results are discarded. -/
theorem runBounded_failfast {E A : Type} (rank : ℕ → ℕ) (tasks : List (Except E A))
    (limit : ℕ) (hlim : 1 ≤ limit)
    (hex : ∃ (q : ℕ) (e : E), tasks[q]? = some (Except.error e)) :
    ∃ p e, runBounded rank tasks limit = Except.error (p, e)
      ∧ tasks[p]? = some (Except.error e)
      ∧ (∀ (q : ℕ) (e2 : E), tasks[q]? = some (Except.error e2) →
          p / limit ≤ q / limit)
      ∧ (∀ (q : ℕ) (e2 : E), tasks[q]? = some (Except.error e2) →
          q / limit = p / limit → rank p ≤ rank q) := by
  obtain ⟨m, rfl⟩ : ∃ m, limit = m + 1 := ⟨limit - 1, by omega⟩
  obtain ⟨p, e, hrun, hget, hb, hr⟩ :=
    runBoundedAux_err rank m tasks.length tasks 0 le_rfl hex
  rw [Nat.zero_add] at hrun
  refine ⟨p, e, hrun, hget, hb, ?_⟩
  intro q e2 hq hdiv
  have h2 := hr q e2 hq hdiv
  simpa using h2

/-- On `[ok, ok, error, ok]` with limit 3 and index settle order, the run
fails with index 2's error; both batch-minimality and settle-order minimality
hold concretely. -/
theorem runBounded_failfast_witness :
    ∃ p e, runBounded (fun i => i)
        ([Except.ok 10, Except.ok 11, Except.error "X", Except.ok 13]
          : List (Except String ℕ)) 3
      = Except.error (p, e)
      ∧ ([Except.ok 10, Except.ok 11, Except.error "X", Except.ok 13]
          : List (Except String ℕ))[p]? = some (Except.error e)
      ∧ (∀ (q : ℕ) (e2 : String),
          ([Except.ok 10, Except.ok 11, Except.error "X", Except.ok 13]
            : List (Except String ℕ))[q]? = some (Except.error e2) →
          p / 3 ≤ q / 3)
      ∧ (∀ (q : ℕ) (e2 : String),
          ([Except.ok 10, Except.ok 11, Except.error "X", Except.ok 13]
            : List (Except String ℕ))[q]? = some (Except.error e2) →
          q / 3 = p / 3 → (fun i => i) p ≤ (fun i => i) q) :=
  runBounded_failfast (fun i => i)
    ([Except.ok 10, Except.ok 11, Except.error "X", Except.ok 13]
      : List (Except String ℕ)) 3 (by omega) ⟨2, "X", rfl⟩

/-! The background task: failure framing and cleanup. -/

/-- C4: whenever any stage of the processing body fails (chunking,
transcription, burn-in, video upload, or thumbnail upload), the run takes the
catch branch: the Job ends with status `failed` and its `videoUrl`,
`thumbnailUrl` and `subtitles` fields exactly as they were at entry — no
partial final-media reference or subtitle text is written
(videoRouter.js:232-237). -/
theorem pipeline_failure_preserves_job (env : PipelineEnv) (job : Job)
    (h : stagesOk env = false) :
    (runPipeline env job).job = { job with status := JobStatus.failed } := by
  rw [stagesOk] at h
  simp only [runPipeline]
  split_ifs with h1 h2 h3 h4 h5 h6 <;>
    first
    | rfl
    | (exfalso
       rw [h1, h2, h3, h4] at h
       simp only [Bool.true_and] at h
       have h7 : env.hasThumbnail = true ∧ env.uploadThumbOk = false := by
         cases hB : env.hasThumbnail <;> cases hU : env.uploadThumbOk <;>
           rw [hB, hU] at h <;> simp_all
       rw [h7.1, h7.2] at h5
       exact h5 rfl)

/-- Witness for C4: the burn-in stage of `burnFailEnv` fails, and the run ends
with the Job `failed` and every other field as at entry. -/
theorem pipeline_failure_preserves_job_witness :
    stagesOk burnFailEnv = false
    ∧ (runPipeline burnFailEnv baseJob).job
        = { baseJob with status := JobStatus.failed } := by
  have hplan : planSegments burnFailEnv.totalDuration 60 = [] := by
    show planSegments 0 60 = []
    rw [planSegments, planLoop, dif_neg]
    rintro ⟨h1, -⟩
    norm_num at h1
  have hcp : chunkPhase burnFailEnv = ([], true) := by
    rw [chunkPhase, hplan]
    show chunkBatchesRun burnFailEnv.chunkOk (toBatches 4 ([] : List (ℕ × ChunkTask))) = _
    rw [toBatches]
    rfl
  have hst : stagesOk burnFailEnv = false := by
    rw [stagesOk, hcp, hplan]
    rfl
  exact ⟨hst, pipeline_failure_preserves_job burnFailEnv baseJob hst⟩

/-- Joining the batches of `tasks.slice(i, i + limit)` recovers the task list
(element-wise, through any per-element expansion `f`). -/
theorem toBatches_flatMap {α β : Type} (limit : ℕ) (f : α → List β) :
    ∀ (n : ℕ) (l : List α), l.length ≤ n →
      (toBatches limit l).flatMap (fun b => b.flatMap f) = l.flatMap f := by
  intro n
  induction n with
  | zero =>
    intro l hl
    have h0 : l = [] := List.length_eq_zero.mp (by omega)
    subst h0
    rw [toBatches]
    rfl
  | succ n ih =>
    intro l hl
    match l with
    | [] =>
      rw [toBatches]
      rfl
    | x :: xs =>
      have hrec := ih (xs.drop (limit - 1)) (by
        simp only [List.length_drop]
        simp only [List.length_cons] at hl
        omega)
      simp only [toBatches, List.flatMap_cons]
      rw [hrec, List.append_assoc, ← List.flatMap_append, List.take_append_drop]

/-- Every file created by the chunk batches belongs to the per-task file
expansion of the batched task list. -/
theorem chunkBatchesRun_files_subset (ok : ℕ → Bool) :
    ∀ bs : List (List (ℕ × ChunkTask)),
      (chunkBatchesRun ok bs).1 ⊆ bs.flatMap (fun b => b.flatMap fun p =>
        [chunkVideoFile p.2.index, chunkAudioFile p.2.index]) := by
  intro bs
  induction bs with
  | nil =>
    intro x hx
    simp only [chunkBatchesRun] at hx
    exact absurd hx (List.not_mem_nil x)
  | cons b bs ih =>
    intro x hx
    simp only [chunkBatchesRun] at hx
    rw [List.flatMap_cons, List.mem_append]
    by_cases hall : b.all (fun p => ok p.1) = true
    · rw [if_pos hall] at hx
      have hx2 : x ∈ (b.filter fun p => ok p.1).flatMap (fun p =>
          [chunkVideoFile p.2.index, chunkAudioFile p.2.index])
          ++ (chunkBatchesRun ok bs).1 := hx
      rcases List.mem_append.mp hx2 with h1 | h2
      · obtain ⟨p, hp, hxp⟩ := List.mem_flatMap.mp h1
        exact Or.inl (List.mem_flatMap.mpr ⟨p, (List.filter_sublist b).subset hp, hxp⟩)
      · exact Or.inr (ih h2)
    · rw [if_neg hall] at hx
      have hx2 : x ∈ (b.filter fun p => ok p.1).flatMap (fun p =>
          [chunkVideoFile p.2.index, chunkAudioFile p.2.index]) := hx
      obtain ⟨p, hp, hxp⟩ := List.mem_flatMap.mp hx2
      exact Or.inl (List.mem_flatMap.mpr ⟨p, (List.filter_sublist b).subset hp, hxp⟩)

/-- Every file created by the chunking phase — plus the uploaded original — is
in the `bgTempFiles` list tracked after a successful chunking stage. -/
theorem chunkPhase_files_subset (env : PipelineEnv) :
    "upload" :: (chunkPhase env).1 ⊆ bgTempAll (planSegments env.totalDuration 60) := by
  intro x hx
  rcases List.mem_cons.mp hx with rfl | hx2
  · exact List.mem_cons_self _ _
  · have h1 := chunkBatchesRun_files_subset env.chunkOk
      (toBatches 4 (planSegments env.totalDuration 60).enum) hx2
    rw [toBatches_flatMap 4 _ (planSegments env.totalDuration 60).enum.length
      (planSegments env.totalDuration 60).enum le_rfl] at h1
    obtain ⟨p, hp, hxp⟩ := List.mem_flatMap.mp h1
    have hc : p.2 ∈ planSegments env.totalDuration 60 :=
      List.getElem?_mem (List.mem_enum_iff_getElem?.mp hp)
    have hxp2 : x = chunkVideoFile p.2.index ∨ x = chunkAudioFile p.2.index := by
      simpa using hxp
    rw [bgTempAll]
    rcases hxp2 with rfl | rfl
    · exact List.mem_cons_of_mem _ (List.mem_append.mpr (Or.inl
        (List.mem_map.mpr ⟨p.2, hc, rfl⟩)))
    · exact List.mem_cons_of_mem _ (List.mem_append.mpr (Or.inr
        (List.mem_map.mpr ⟨p.2, hc, rfl⟩)))

/-- The final Job and the event trace are independent of which `unlink` calls
succeed: deletion failures are swallowed by `cleanupFiles` and never escalate
into the run's outcome. -/
theorem runPipeline_unlink_indep (env : PipelineEnv) (job : Job) (ok2 : String → Bool) :
    (runPipeline { env with unlinkOk := ok2 } job).job = (runPipeline env job).job
    ∧ (runPipeline { env with unlinkOk := ok2 } job).events
        = (runPipeline env job).events := by
  have hcp : chunkPhase { env with unlinkOk := ok2 } = chunkPhase env := rfl
  constructor <;>
  · simp only [runPipeline, hcp]
    split_ifs <;> rfl

/-- C9 (amended): for runs whose chunking stage succeeds, cleanup is
best-effort on both terminal transitions: the terminal status write is the
first event, followed by exactly one `unlink` attempt per tracked file; every
file created during the run is among the attempted deletions; what is deleted
is exactly the attempted files on which `unlink` succeeds; and deletion
failures never escalate — the final Job and the event trace do not depend on
which `unlink` calls succeed.  (When the chunking stage itself fails
mid-batch, files created by sibling tasks are not tracked and leak.) -/
theorem cleanup_best_effort (env : PipelineEnv) (job : Job)
    (hchunk : (chunkPhase env).2 = true) :
    ∃ tracked : List String,
      (runPipeline env job).events
        = FsEv.save (runPipeline env job).job.status :: tracked.map FsEv.unlink
      ∧ (runPipeline env job).created ⊆ tracked
      ∧ (runPipeline env job).deleted = tracked.filter env.unlinkOk
      ∧ ∀ ok2 : String → Bool,
          (runPipeline { env with unlinkOk := ok2 } job).job = (runPipeline env job).job
          ∧ (runPipeline { env with unlinkOk := ok2 } job).events
              = (runPipeline env job).events := by
  have hsub := chunkPhase_files_subset env
  obtain ⟨tracked, h1, h2, h3⟩ :
      ∃ tracked : List String,
        (runPipeline env job).events
          = FsEv.save (runPipeline env job).job.status :: tracked.map FsEv.unlink
        ∧ (runPipeline env job).created ⊆ tracked
        ∧ (runPipeline env job).deleted = tracked.filter env.unlinkOk := by
    simp only [runPipeline]
    split_ifs with h0 ht hb hu hth hthumb
    · refine ⟨bgTempAll (planSegments env.totalDuration 60) ++ ["combined.srt", "final.mp4"],
        rfl, ?_, rfl⟩
      intro x hx
      rcases List.mem_append.mp hx with hx1 | hx1
      · exact List.mem_append.mpr (Or.inl (hsub hx1))
      · exact List.mem_append.mpr (Or.inr hx1)
    · refine ⟨bgTempAll (planSegments env.totalDuration 60) ++ ["combined.srt", "final.mp4"],
        rfl, ?_, rfl⟩
      intro x hx
      rcases List.mem_append.mp hx with hx1 | hx1
      · exact List.mem_append.mpr (Or.inl (hsub hx1))
      · exact List.mem_append.mpr (Or.inr hx1)
    · refine ⟨bgTempAll (planSegments env.totalDuration 60) ++ ["combined.srt", "final.mp4"],
        rfl, ?_, rfl⟩
      intro x hx
      rcases List.mem_append.mp hx with hx1 | hx1
      · exact List.mem_append.mpr (Or.inl (hsub hx1))
      · exact List.mem_append.mpr (Or.inr hx1)
    · refine ⟨bgTempAll (planSegments env.totalDuration 60) ++ ["combined.srt", "final.mp4"],
        rfl, ?_, rfl⟩
      intro x hx
      rcases List.mem_append.mp hx with hx1 | hx1
      · exact List.mem_append.mpr (Or.inl (hsub hx1))
      · exact List.mem_append.mpr (Or.inr hx1)
    · refine ⟨bgTempAll (planSegments env.totalDuration 60) ++ ["combined.srt"],
        rfl, ?_, rfl⟩
      intro x hx
      rcases List.mem_append.mp hx with hx1 | hx1
      · exact List.mem_append.mpr (Or.inl (hsub hx1))
      · exact List.mem_append.mpr (Or.inr hx1)
    · exact ⟨bgTempAll (planSegments env.totalDuration 60), rfl, hsub, rfl⟩
  exact ⟨tracked, h1, h2, h3, fun ok2 => runPipeline_unlink_indep env job ok2⟩

/-- The two chunks planned for a 90-second video with 60-second segments. -/
theorem planSegments_90 :
    planSegments (90 : ℚ) 60
      = [⟨1, 0, 60, 60⟩, ⟨2, 60, 90, 30⟩] := by
  rw [planSegments_eq_map 90 60 (by norm_num)]
  rw [show (⌈(90 : ℚ) / 60⌉).toNat = 2 from by
    rw [show (90 : ℚ) / 60 = 3 / 2 from by norm_num]
    rw [show ⌈(3 / 2 : ℚ)⌉ = 2 from by
      rw [Int.ceil_eq_iff]
      constructor <;> norm_num]
    rfl]
  show [expectedChunk 90 60 0, expectedChunk 90 60 1] = _
  rw [expectedChunk, expectedChunk]
  norm_num [ChunkTask.mk.injEq, min_def]

/-- The chunking phase of `cexEnv`: the first task's files are created, the
second task fails, so the phase reports failure. -/
theorem chunkPhase_cexEnv :
    chunkPhase cexEnv = (["chunk-1.mp4", "chunk-1.wav"], false) := by
  rw [chunkPhase]
  rw [show cexEnv.totalDuration = (90 : ℚ) from rfl]
  rw [planSegments_90]
  show chunkBatchesRun cexEnv.chunkOk
      (toBatches 4 [((0 : ℕ), (⟨1, 0, 60, 60⟩ : ChunkTask)), (1, ⟨2, 60, 90, 30⟩)]) = _
  rw [toBatches]
  show chunkBatchesRun cexEnv.chunkOk
      ([((0 : ℕ), (⟨1, 0, 60, 60⟩ : ChunkTask)), (1, ⟨2, 60, 90, 30⟩)] :: toBatches 4 []) = _
  rw [toBatches]
  rfl

/-- The chunking phase of `okEnv`: both tasks succeed in one batch of 4. -/
theorem chunkPhase_okEnv :
    chunkPhase okEnv
      = (["chunk-1.mp4", "chunk-1.wav", "chunk-2.mp4", "chunk-2.wav"], true) := by
  rw [chunkPhase]
  rw [show okEnv.totalDuration = (90 : ℚ) from rfl]
  rw [planSegments_90]
  show chunkBatchesRun okEnv.chunkOk
      (toBatches 4 [((0 : ℕ), (⟨1, 0, 60, 60⟩ : ChunkTask)), (1, ⟨2, 60, 90, 30⟩)]) = _
  rw [toBatches]
  show chunkBatchesRun okEnv.chunkOk
      ([((0 : ℕ), (⟨1, 0, 60, 60⟩ : ChunkTask)), (1, ⟨2, 60, 90, 30⟩)] :: toBatches 4 []) = _
  rw [toBatches]
  rfl

/-- C9 counterexample: on the failed terminal transition of a run whose second
extraction task fails (90-second video, both tasks in the first batch of 4),
the files created by the successful sibling task are not tracked in
`bgTempFiles` (chunk paths are pushed only after `createOptimizedVideoChunks`
returns, videoRouter.js:177-185): no deletion is attempted for `chunk-1.mp4` —
only the uploaded original is cleaned up — so an intermediate artifact created
during the run leaks. -/
theorem cleanup_leak_cex :
    "chunk-1.mp4" ∈ (runPipeline cexEnv baseJob).created
    ∧ FsEv.unlink "chunk-1.mp4" ∉ (runPipeline cexEnv baseJob).events
    ∧ "chunk-1.mp4" ∉ (runPipeline cexEnv baseJob).deleted
    ∧ (runPipeline cexEnv baseJob).job.status = JobStatus.failed := by
  have hrun : runPipeline cexEnv baseJob
      = { job := { baseJob with status := JobStatus.failed }
          events := [FsEv.save JobStatus.failed, FsEv.unlink "upload"]
          created := ["upload", "chunk-1.mp4", "chunk-1.wav"]
          deleted := ["upload"] } := by
    rw [runPipeline, chunkPhase_cexEnv]
    rfl
  rw [hrun]
  exact ⟨by decide, by decide, by decide, rfl⟩

/-- Witness for C9's amended theorem on a fully successful 90-second run. -/
theorem cleanup_best_effort_witness :
    (chunkPhase okEnv).2 = true
    ∧ ∃ tracked : List String,
        (runPipeline okEnv baseJob).events
          = FsEv.save (runPipeline okEnv baseJob).job.status :: tracked.map FsEv.unlink
        ∧ (runPipeline okEnv baseJob).created ⊆ tracked
        ∧ (runPipeline okEnv baseJob).deleted = tracked.filter okEnv.unlinkOk
        ∧ ∀ ok2 : String → Bool,
            (runPipeline { okEnv with unlinkOk := ok2 } baseJob).job
              = (runPipeline okEnv baseJob).job
            ∧ (runPipeline { okEnv with unlinkOk := ok2 } baseJob).events
              = (runPipeline okEnv baseJob).events :=
  ⟨by rw [chunkPhase_okEnv], cleanup_best_effort okEnv baseJob (by rw [chunkPhase_okEnv])⟩

/-! The subtitle merge: trimming facts and pass-through of unrecognised
lines. -/

theorem dropWhile_eq_of_trim (l : List Char) (h : trimChars l = l) :
    l.dropWhile Char.isWhitespace = l := by
  apply (@List.dropWhile_suffix _ l Char.isWhitespace).eq_of_length
  have h1 := (@List.dropWhile_suffix _ ((l.dropWhile Char.isWhitespace).reverse)
    Char.isWhitespace).length_le
  rw [List.length_reverse] at h1
  have h2 := (@List.dropWhile_suffix _ l Char.isWhitespace).length_le
  have hlen : (trimChars l).length = l.length := by rw [h]
  unfold trimChars at hlen
  rw [List.length_reverse] at hlen
  omega

theorem dropWhile_rev_eq_of_trim (l : List Char) (h : trimChars l = l) :
    l.reverse.dropWhile Char.isWhitespace = l.reverse := by
  have h1 := dropWhile_eq_of_trim l h
  have h2 : trimChars l = (l.reverse.dropWhile Char.isWhitespace).reverse := by
    unfold trimChars
    rw [h1]
  rw [h] at h2
  have h3 := congrArg List.reverse h2
  rw [List.reverse_reverse] at h3
  exact h3.symm

/-- A nonempty list of trimmed nonempty lines joins to a string that trimming
leaves alone on either end. -/
theorem joinNl_good_facts : ∀ lines : List (List Char), lines ≠ [] →
    (∀ l ∈ lines, trimChars l = l ∧ l ≠ []) →
    joinNl lines ≠ []
    ∧ (joinNl lines).dropWhile Char.isWhitespace = joinNl lines
    ∧ (joinNl lines).reverse.dropWhile Char.isWhitespace = (joinNl lines).reverse := by
  intro lines
  induction lines with
  | nil => intro h; exact absurd rfl h
  | cons l rest ih =>
    intro _ hg
    obtain ⟨htl, hlne⟩ := hg l (by simp)
    have hdl := dropWhile_eq_of_trim l htl
    have hdr := dropWhile_rev_eq_of_trim l htl
    cases rest with
    | nil => exact ⟨hlne, hdl, hdr⟩
    | cons l2 ls =>
      obtain ⟨hne2, hd2, hr2⟩ := ih (List.cons_ne_nil l2 ls) fun x hx => hg x (by simp [hx])
      have hjoin : joinNl (l :: l2 :: ls) = l ++ '\n' :: joinNl (l2 :: ls) := rfl
      rw [hjoin]
      refine ⟨by simp [hlne], ?_, ?_⟩
      · rw [List.dropWhile_append, hdl,
          if_neg (by simp [List.isEmpty_eq_false, hlne])]
      · rw [List.reverse_append, List.reverse_cons]
        rw [List.dropWhile_append, List.dropWhile_append, hr2,
          if_neg (by simpa using hne2)]
        rw [if_neg (by simpa using hne2)]

/-- Emitting every line followed by a newline is joining with newlines plus a
trailing newline. -/
theorem flatMap_newline : ∀ lines : List (List Char), lines ≠ [] →
    lines.flatMap (fun l => l ++ ['\n']) = joinNl lines ++ ['\n'] := by
  intro lines
  induction lines with
  | nil => intro h; exact absurd rfl h
  | cons l rest ih =>
    intro _
    cases rest with
    | nil =>
      rw [List.flatMap_cons, List.flatMap_nil, List.append_nil]
      rw [show joinNl [l] = l from rfl]
    | cons l2 ls =>
      rw [List.flatMap_cons, ih (List.cons_ne_nil l2 ls)]
      have hjoin : joinNl (l :: l2 :: ls) = l ++ '\n' :: joinNl (l2 :: ls) := rfl
      rw [hjoin]
      simp

/-- The line loop on an unrecognised (trimmed, nonempty, not digit-only,
timestamp-free) line: the line is appended verbatim and the cue counter is
untouched. -/
theorem combineStep_good (A : List Char) (i : ℕ) (l : List Char) (hg : GoodLine l) :
    combineStep (A, i) l = (A ++ l ++ ['\n'], i) := by
  obtain ⟨htrim, hne, hdig, hts, -⟩ := hg
  have hidx : isIndexLine (trimChars l) = false := by
    rw [htrim, isIndexLine, hdig, Bool.and_false]
  have hfind : (findTs (trimChars l)).isSome = false := by
    rw [htrim, hts]
    rfl
  have hlen : 0 < (trimChars l).length := by
    rw [htrim]
    exact List.length_pos.mpr hne
  simp only [combineStep]
  rw [if_neg (by simp [hidx]), if_neg (by simp [hfind]), if_pos hlen, htrim]

theorem foldl_combineStep_good : ∀ (lines : List (List Char)) (acc : List Char) (i : ℕ),
    (∀ l ∈ lines, GoodLine l) →
    lines.foldl combineStep (acc, i)
      = (acc ++ lines.flatMap (fun l => l ++ ['\n']), i) := by
  intro lines
  induction lines with
  | nil =>
    intro acc i _
    simp
  | cons l ls ih =>
    intro acc i hg
    rw [List.foldl_cons, combineStep_good acc i l (hg l (by simp))]
    rw [ih (acc ++ l ++ ['\n']) i fun x hx => hg x (by simp [hx])]
    simp [List.flatMap_cons, List.append_assoc]

/-- C8 (amended): `combineSubtitles` never raises and never aborts — it is a
total line-by-line fold; lines that are neither digit-only index numerals nor
blank separators nor timestamp ranges are passed through verbatim (trimmed),
so a malformed cue block is merged best-effort into the output rather than
invalidating the merge: on a transcription whose lines are all such
unrecognised text lines, the merge returns the input unchanged. -/
theorem combineSubtitles_passthrough (lines : List (List Char))
    (hne : lines ≠ []) (h : ∀ l ∈ lines, GoodLine l) :
    combineSubtitles [String.mk (joinNl lines)] = String.mk (joinNl lines) := by
  rw [combineSubtitles]
  simp only [List.foldl_cons, List.foldl_nil]
  rw [show (String.mk (joinNl lines)).toList = joinNl lines from rfl]
  rw [splitNl_joinNl lines hne fun l hl => (h l hl).2.2.2.2]
  rw [foldl_combineStep_good lines [] 1 h]
  show String.mk (trimChars (lines.flatMap fun l => l ++ ['\n'])) = _
  rw [flatMap_newline lines hne]
  rw [trimChars_append_ws (joinNl lines) ['\n'] (by
    intro c hc
    rw [List.mem_singleton] at hc
    subst hc
    decide)]
  obtain ⟨-, hd, hr⟩ := joinNl_good_facts lines hne fun l hl => ⟨(h l hl).1, (h l hl).2.1⟩
  unfold trimChars
  rw [hd, hr, List.reverse_reverse]

/-- Witness for C8's amended theorem: a two-line unrecognised block is
returned unchanged. -/
theorem combineSubtitles_passthrough_witness :
    combineSubtitles [String.mk (joinNl [['h', 'i'], ['y', 'o']])]
      = String.mk (joinNl [['h', 'i'], ['y', 'o']]) :=
  combineSubtitles_passthrough [['h', 'i'], ['y', 'o']] (by decide) (by
    intro l hl
    rcases List.mem_cons.mp hl with rfl | hl2
    · exact ⟨rfl, by decide, rfl, rfl, by decide⟩
    · rcases List.mem_cons.mp hl2 with rfl | hl3
      · exact ⟨rfl, by decide, rfl, rfl, by decide⟩
      · exact absurd hl3 (List.not_mem_nil l))

/-! Shape facts about rendered cue blocks. -/

theorem digitChar_not_ws (n : ℕ) : (Nat.digitChar n).isWhitespace = false := by
  match n with
  | 0 => decide
  | 1 => decide
  | 2 => decide
  | 3 => decide
  | 4 => decide
  | 5 => decide
  | 6 => decide
  | 7 => decide
  | 8 => decide
  | 9 => decide
  | 10 => decide
  | 11 => decide
  | 12 => decide
  | 13 => decide
  | 14 => decide
  | 15 => decide
  | n + 16 =>
    show ('*' : Char).isWhitespace = false
    decide

theorem digitChar_ne_nl (n : ℕ) : Nat.digitChar n ≠ '\n' := by
  match n with
  | 0 => decide
  | 1 => decide
  | 2 => decide
  | 3 => decide
  | 4 => decide
  | 5 => decide
  | 6 => decide
  | 7 => decide
  | 8 => decide
  | 9 => decide
  | 10 => decide
  | 11 => decide
  | 12 => decide
  | 13 => decide
  | 14 => decide
  | 15 => decide
  | n + 16 =>
    show ('*' : Char) ≠ '\n'
    decide

/-- A line with non-whitespace first and last characters is already
trimmed. -/
theorem trimChars_ends (c e : Char) (m : List Char)
    (hc : c.isWhitespace = false) (he : e.isWhitespace = false) :
    trimChars (c :: (m ++ [e])) = c :: (m ++ [e]) := by
  unfold trimChars
  rw [List.dropWhile_cons, if_neg (by simp [hc])]
  rw [show (c :: (m ++ [e])).reverse = e :: (m.reverse ++ [c]) from by simp]
  rw [List.dropWhile_cons, if_neg (by simp [he])]
  rw [show (e :: (m.reverse ++ [c])).reverse = c :: (m ++ [e]) from by simp]

theorem canonTsLine_eq_ends (a b : Ts) :
    canonTsLine a b
      = Nat.digitChar (a.h / 10) ::
        ([Nat.digitChar (a.h % 10), ':',
          Nat.digitChar (a.m / 10), Nat.digitChar (a.m % 10), ':',
          Nat.digitChar (a.s / 10), Nat.digitChar (a.s % 10), ',',
          Nat.digitChar (a.ms / 100), Nat.digitChar (a.ms / 10 % 10),
          Nat.digitChar (a.ms % 10),
          ' ', '-', '-', '>', ' ',
          Nat.digitChar (b.h / 10), Nat.digitChar (b.h % 10), ':',
          Nat.digitChar (b.m / 10), Nat.digitChar (b.m % 10), ':',
          Nat.digitChar (b.s / 10), Nat.digitChar (b.s % 10), ',',
          Nat.digitChar (b.ms / 100), Nat.digitChar (b.ms / 10 % 10)]
          ++ [Nat.digitChar (b.ms % 10)]) := rfl

theorem trimChars_canonTsLine (a b : Ts) :
    trimChars (canonTsLine a b) = canonTsLine a b := by
  rw [canonTsLine_eq_ends]
  exact trimChars_ends _ _ _ (digitChar_not_ws _) (digitChar_not_ws _)

theorem nl_ne_digitChar (n : ℕ) : '\n' ≠ Nat.digitChar n :=
  fun h => digitChar_ne_nl n h.symm

theorem nl_not_mem_canonTsLine (a b : Ts) : '\n' ∉ canonTsLine a b := by
  rw [canonTsLine_eq_ends]
  intro hmem
  simp only [List.mem_cons, List.mem_append, List.mem_singleton, List.not_mem_nil,
    or_false, false_or, digitChar_ne_nl, nl_ne_digitChar,
    (by decide : ('\n' : Char) ≠ ':'), (by decide : ('\n' : Char) ≠ ','),
    (by decide : ('\n' : Char) ≠ ' '), (by decide : ('\n' : Char) ≠ '-'),
    (by decide : ('\n' : Char) ≠ '>')] at hmem

theorem isIndexLine_canonTsLine (a b : Ts) : isIndexLine (canonTsLine a b) = false := by
  rw [isIndexLine]
  by_cases hall : (canonTsLine a b).all Char.isDigit = true
  · exfalso
    have hcol : (':' : Char) ∈ canonTsLine a b := by
      rw [canonTsLine_eq_ends]
      simp
    exact absurd (List.all_eq_true.mp hall ':' hcol) (by decide)
  · rw [Bool.not_eq_true] at hall
    rw [hall, Bool.and_false]

theorem flatMap_congr_mem {α β : Type} : ∀ (l : List α) (f g : α → List β),
    (∀ a ∈ l, f a = g a) → l.flatMap f = l.flatMap g := by
  intro l f g
  induction l with
  | nil => intro _; rfl
  | cons x xs ih =>
    intro h
    rw [List.flatMap_cons, List.flatMap_cons, h x (by simp),
      ih fun a ha => h a (by simp [ha])]

theorem map_congr_id {α : Type} : ∀ (l : List α) (f : α → α),
    (∀ a ∈ l, f a = a) → l.map f = l := by
  intro l f
  induction l with
  | nil => intro _; rfl
  | cons x xs ih =>
    intro h
    rw [List.map_cons, h x (by simp), ih fun a ha => h a (by simp [ha])]

theorem map_congr_mem {α β : Type} : ∀ (l : List α) (f g : α → β),
    (∀ a ∈ l, f a = g a) → l.map f = l.map g := by
  intro l f g
  induction l with
  | nil => intro _; rfl
  | cons x xs ih =>
    intro h
    rw [List.map_cons, List.map_cons, h x (by simp),
      ih fun a ha => h a (by simp [ha])]

theorem cues_lines_ne_nil (cs : List Cue) (hne : cs ≠ []) :
    cs.flatMap renderCueLines ≠ [] := by
  match cs with
  | [] => exact absurd rfl hne
  | c :: rest =>
    rw [List.flatMap_cons, renderCueLines]
    simp

theorem cues_lines_no_nl (cs : List Cue)
    (hok : ∀ c ∈ cs, ∀ l ∈ c.text, GoodLine l) :
    ∀ l ∈ cs.flatMap renderCueLines, '\n' ∉ l := by
  intro l hl
  obtain ⟨c, hc, hlc⟩ := List.mem_flatMap.mp hl
  rw [renderCueLines] at hlc
  rcases List.mem_cons.mp hlc with rfl | hlc2
  · intro hmem
    exact absurd rfl (natRepr_good c.idx '\n' hmem).2.2.2
  · rcases List.mem_cons.mp hlc2 with rfl | hlc3
    · exact nl_not_mem_canonTsLine c.tsa c.tsb
    · rcases List.mem_append.mp hlc3 with htext | hblank
      · exact (hok c hc l htext).2.2.2.2
      · rw [List.mem_singleton] at hblank
        subst hblank
        exact List.not_mem_nil _

/-! The line loop of `combineSubtitles` on rendered cue blocks. -/

theorem combineStep_repr (A : List Char) (i k : ℕ) :
    combineStep (A, i) ((Nat.repr k).toList)
      = (A ++ (Nat.repr i).toList ++ ['\n'], i + 1) := by
  have htrim : trimChars ((Nat.repr k).toList) = (Nat.repr k).toList :=
    trimChars_all_nonws _ fun c hc => (natRepr_good k c hc).2.1
  have hidx : isIndexLine ((Nat.repr k).toList) = true := by
    rw [isIndexLine]
    rw [List.isEmpty_eq_false.mpr (natRepr_ne_nil k)]
    rw [List.all_eq_true.mpr fun c hc => (natRepr_good k c hc).1]
    rfl
  simp only [combineStep, htrim]
  rw [if_pos hidx]
  rfl

theorem combineStep_canonTsLine (A : List Char) (i : ℕ) (a b : Ts)
    (ha : a.inRange) (hb : b.inRange) :
    combineStep (A, i) (canonTsLine a b) = (A ++ canonTsLine a b ++ ['\n'], i) := by
  have htrim := trimChars_canonTsLine a b
  have hfind : (findTs (canonTsLine a b)).isSome = true := by
    rw [findTs_canon a b ha hb]
    rfl
  simp only [combineStep, htrim]
  rw [if_neg (by simp [isIndexLine_canonTsLine a b]), if_pos hfind]

theorem combineStep_blank (A : List Char) (i : ℕ) :
    combineStep (A, i) [] = (A ++ ['\n'], i) := rfl

theorem emitLines_cons_eq (i : ℕ) (l : List Char) (ls : List (List Char))
    (out : List Char) (j : ℕ) (h : combineStep ([], i) l = (out, j)) :
    emitLines i (l :: ls) = (out ++ (emitLines j ls).1, (emitLines j ls).2) := by
  rw [show emitLines i (l :: ls)
      = ((combineStep ([], i) l).1 ++ (emitLines (combineStep ([], i) l).2 ls).1,
         (emitLines (combineStep ([], i) l).2 ls).2) from rfl]
  rw [h]

theorem foldl_emitLines : ∀ (ls : List (List Char)) (A : List Char) (i : ℕ),
    ls.foldl combineStep (A, i) = (A ++ (emitLines i ls).1, (emitLines i ls).2) := by
  intro ls
  induction ls with
  | nil =>
    intro A i
    simp [emitLines]
  | cons l ls ih =>
    intro A i
    rw [List.foldl_cons]
    have hstep : combineStep (A, i) l
        = (A ++ (combineStep ([], i) l).1, (combineStep ([], i) l).2) := by
      simp only [combineStep]
      split_ifs <;> simp
    rw [hstep, ih]
    rw [show emitLines i (l :: ls)
        = ((combineStep ([], i) l).1 ++ (emitLines (combineStep ([], i) l).2 ls).1,
           (emitLines (combineStep ([], i) l).2 ls).2) from rfl]
    simp [List.append_assoc]

theorem emitLines_append : ∀ (xs ys : List (List Char)) (i : ℕ),
    emitLines i (xs ++ ys)
      = ((emitLines i xs).1 ++ (emitLines (emitLines i xs).2 ys).1,
         (emitLines (emitLines i xs).2 ys).2) := by
  intro xs
  induction xs with
  | nil =>
    intro ys i
    simp [emitLines]
  | cons x xs ih =>
    intro ys i
    rw [List.cons_append]
    rw [show emitLines i (x :: (xs ++ ys))
        = ((combineStep ([], i) x).1 ++ (emitLines (combineStep ([], i) x).2 (xs ++ ys)).1,
           (emitLines (combineStep ([], i) x).2 (xs ++ ys)).2) from rfl]
    rw [ih]
    rw [show emitLines i (x :: xs)
        = ((combineStep ([], i) x).1 ++ (emitLines (combineStep ([], i) x).2 xs).1,
           (emitLines (combineStep ([], i) x).2 xs).2) from rfl]
    simp [List.append_assoc]

theorem emitLines_append_eq (i j : ℕ) (xs ys : List (List Char)) (out : List Char)
    (h : emitLines i xs = (out, j)) :
    emitLines i (xs ++ ys) = (out ++ (emitLines j ys).1, (emitLines j ys).2) := by
  rw [emitLines_append, h]

theorem emitLines_textBlock : ∀ (text : List (List Char)) (i : ℕ),
    (∀ l ∈ text, GoodLine l) →
    emitLines i (text ++ [[]])
      = ((text ++ [[]]).flatMap (fun l => l ++ ['\n']), i) := by
  intro text
  induction text with
  | nil =>
    intro i _
    rw [List.nil_append]
    rw [show emitLines i [[]] = (['\n'] ++ [], i) from rfl]
    simp
  | cons l text ih =>
    intro i hg
    rw [List.cons_append]
    rw [emitLines_cons_eq i l (text ++ [[]]) ([] ++ l ++ ['\n']) i
      (combineStep_good [] i l (hg l (by simp)))]
    rw [ih i fun x hx => hg x (by simp [hx])]
    simp [List.flatMap_cons, List.append_assoc]

theorem emitLines_cueBlock (c : Cue) (i : ℕ)
    (ha : c.tsa.inRange) (hb : c.tsb.inRange)
    (htext : ∀ l ∈ c.text, GoodLine l) :
    emitLines i (renderCueLines c)
      = ((renderCueLines { c with idx := i }).flatMap (fun l => l ++ ['\n']), i + 1) := by
  rw [renderCueLines]
  rw [emitLines_cons_eq i _ _ _ _ (combineStep_repr [] i c.idx)]
  rw [emitLines_cons_eq (i + 1) _ _ _ _ (combineStep_canonTsLine [] (i + 1) c.tsa c.tsb ha hb)]
  rw [emitLines_textBlock c.text (i + 1) htext]
  rw [show renderCueLines { c with idx := i }
      = (Nat.repr i).toList :: canonTsLine c.tsa c.tsb :: (c.text ++ [[]]) from rfl]
  simp [List.flatMap_cons, List.append_assoc]

theorem renumFrom_length : ∀ (cs : List Cue) (i : ℕ), (renumFrom i cs).length = cs.length := by
  intro cs
  induction cs with
  | nil => intro i; rfl
  | cons c cs ih =>
    intro i
    rw [show renumFrom i (c :: cs) = { c with idx := i } :: renumFrom (i + 1) cs from rfl]
    rw [List.length_cons, List.length_cons, ih]

theorem renumFrom_map_idx : ∀ (cs : List Cue) (i : ℕ),
    (renumFrom i cs).map Cue.idx = List.range' i cs.length := by
  intro cs
  induction cs with
  | nil => intro i; rfl
  | cons c cs ih =>
    intro i
    rw [show renumFrom i (c :: cs) = { c with idx := i } :: renumFrom (i + 1) cs from rfl]
    rw [List.map_cons, ih, List.length_cons, List.range'_succ]

theorem renumFrom_chain_tsa : ∀ (cs : List Cue) (i : ℕ),
    List.Chain' (fun c d : Cue => c.tsa.toSeconds < d.tsa.toSeconds) cs →
    List.Chain' (fun c d : Cue => c.tsa.toSeconds < d.tsa.toSeconds) (renumFrom i cs) := by
  intro cs
  induction cs with
  | nil =>
    intro i _
    exact List.chain'_nil
  | cons c cs ih =>
    intro i h
    rw [show renumFrom i (c :: cs) = { c with idx := i } :: renumFrom (i + 1) cs from rfl]
    cases cs with
    | nil => exact List.chain'_singleton _
    | cons d ds =>
      rw [show renumFrom (i + 1) (d :: ds) = { d with idx := i + 1 } :: renumFrom (i + 2) ds from rfl]
      rw [List.chain'_cons]
      obtain ⟨hcd, hrest⟩ := List.chain'_cons.mp h
      have h2 := ih (i + 1) hrest
      rw [show renumFrom (i + 1) (d :: ds)
          = { d with idx := i + 1 } :: renumFrom (i + 2) ds from rfl] at h2
      exact ⟨hcd, h2⟩

theorem emitLines_cues : ∀ (cs : List Cue) (i : ℕ),
    (∀ c ∈ cs, c.tsa.inRange ∧ c.tsb.inRange ∧ ∀ l ∈ c.text, GoodLine l) →
    emitLines i (cs.flatMap renderCueLines)
      = (((renumFrom i cs).flatMap renderCueLines).flatMap (fun l => l ++ ['\n']),
         i + cs.length) := by
  intro cs
  induction cs with
  | nil =>
    intro i _
    simp [emitLines, renumFrom]
  | cons c cs ih =>
    intro i hok
    rw [List.flatMap_cons]
    rw [emitLines_append_eq i (i + 1) _ _ _
      (emitLines_cueBlock c i (hok c (by simp)).1 (hok c (by simp)).2.1 (hok c (by simp)).2.2)]
    rw [ih (i + 1) fun d hd => hok d (by simp [hd])]
    simp only [Prod.mk.injEq]
    constructor
    · rw [show renumFrom i (c :: cs) = { c with idx := i } :: renumFrom (i + 1) cs from rfl]
      simp [List.flatMap_cons, List.flatMap_append, List.append_assoc]
    · rw [List.length_cons]
      omega

/-! Per-segment timestamp adjustment of a rendered track, and the merged
pipeline. -/

theorem map_adjustLine_cue (o : ℕ) (c : Cue) (hok : CueOK o c) :
    (renderCueLines c).map (adjustLine (o : ℚ)) = renderCueLines (adjCue o c) := by
  obtain ⟨hca, hcb, hba, hbb, htext⟩ := hok
  rw [renderCueLines]
  rw [List.map_cons, List.map_cons, List.map_append]
  rw [show adjustLine (o : ℚ) ((Nat.repr c.idx).toList) = (Nat.repr c.idx).toList from by
    rw [adjustLine, findTs_digits_none _ fun ch hch => natRepr_good c.idx ch hch]]
  rw [adjustLine_canon o c.tsa c.tsb hca hcb hba hbb]
  rw [map_congr_id c.text _ fun l hl => by
    rw [adjustLine, (htext l hl).2.2.2.1]]
  rw [show ([[]] : List (List Char)).map (adjustLine (o : ℚ)) = [[]] from rfl]
  rfl

/-- `adjustSubtitlesTiming` on a rendered segment track with a whole-second
offset: every cue's timestamp line is re-rendered shifted, everything else is
untouched. -/
theorem adjust_segment (o : ℕ) (cs : List Cue) (hne : cs ≠ [])
    (hok : ∀ c ∈ cs, CueOK o c) :
    adjustSubtitlesTiming (segmentSrt cs) (o : ℚ)
      = segmentSrt (cs.map (adjCue o)) := by
  rw [adjustSubtitlesTiming]
  rw [show (segmentSrt cs).toList = joinNl (cs.flatMap renderCueLines) from rfl]
  rw [splitNl_joinNl _ (cues_lines_ne_nil cs hne)
    (cues_lines_no_nl cs fun c hc => (hok c hc).2.2.2.2)]
  rw [List.map_flatMap]
  rw [flatMap_congr_mem cs _ _ fun c hc => map_adjustLine_cue o c (hok c hc)]
  rw [segmentSrt, List.flatMap_map]

theorem foldl_segments : ∀ (segments : List (ℕ × List Cue)) (A : List Char) (i : ℕ),
    SegsOK segments →
    segments.foldl
      (fun acc p => (splitNl (segmentSrt (p.2.map (adjCue p.1))).toList).foldl combineStep acc)
      (A, i)
    = (A ++ (emitLines i
        ((segments.flatMap fun p => p.2.map (adjCue p.1)).flatMap renderCueLines)).1,
       (emitLines i
        ((segments.flatMap fun p => p.2.map (adjCue p.1)).flatMap renderCueLines)).2) := by
  intro segments
  induction segments with
  | nil =>
    intro A i _
    simp [emitLines]
  | cons p ps ih =>
    intro A i hok
    have hok' : ∀ q ∈ p :: ps, q.2 ≠ [] ∧ ∀ c ∈ q.2, CueOK q.1 c := hok
    rw [List.foldl_cons]
    have hgood : ∀ c ∈ p.2.map (adjCue p.1), ∀ l ∈ c.text, GoodLine l := by
      intro c hc
      obtain ⟨c0, hc0, rfl⟩ := List.mem_map.mp hc
      exact fun l hl => ((hok' p (by simp)).2 c0 hc0).2.2.2.2 l hl
    have hmapne : p.2.map (adjCue p.1) ≠ [] := by
      intro hmeq
      exact (hok' p (by simp)).1 (List.map_eq_nil_iff.mp hmeq)
    have hlines : splitNl (segmentSrt (p.2.map (adjCue p.1))).toList
        = (p.2.map (adjCue p.1)).flatMap renderCueLines := by
      rw [show (segmentSrt (p.2.map (adjCue p.1))).toList
          = joinNl ((p.2.map (adjCue p.1)).flatMap renderCueLines) from rfl]
      exact splitNl_joinNl _ (cues_lines_ne_nil _ hmapne) (cues_lines_no_nl _ hgood)
    rw [hlines, foldl_emitLines]
    rw [ih (A ++ (emitLines i ((p.2.map (adjCue p.1)).flatMap renderCueLines)).1)
      ((emitLines i ((p.2.map (adjCue p.1)).flatMap renderCueLines)).2)
      fun q hq => hok' q (by simp [hq])]
    rw [List.flatMap_cons, List.flatMap_append, emitLines_append]
    simp [List.append_assoc]

/-- C2 (amended): for well-behaved segment tracks — every segment nonempty,
every cue with canonical in-range timestamps that stay below 100 hours after
shifting, and cue text lines that are trimmed, nonempty, not digit-only and
timestamp-free — the merge of the per-segment-offset-adjusted renders is
exactly the renumbered concatenation: the output track renders the
concatenated cues renumbered contiguously from 1 (`Σ nᵢ` cues, indices
`1..Σnᵢ`), and if the shifted cue start times of the concatenation are
strictly increasing (ascending non-overlapping segments), so are those of the
merged track.  Without the digit-only/blank restrictions on cue text the
renumbering corrupts the track (see the counterexample). -/
theorem combine_merge_correct (segments : List (ℕ × List Cue)) (hok : SegsOK segments)
    (hord : List.Chain' (fun c d : Cue => c.tsa.toSeconds < d.tsa.toSeconds)
      (segments.flatMap fun p => p.2.map (adjCue p.1))) :
    combineSubtitles (segments.map fun p => adjustSubtitlesTiming (segmentSrt p.2) (p.1 : ℚ))
      = String.mk (trimChars (joinNl ((mergedCues segments).flatMap renderCueLines)))
    ∧ (mergedCues segments).length = (segments.map fun p => p.2.length).sum
    ∧ (mergedCues segments).map Cue.idx
        = List.range' 1 ((segments.map fun p => p.2.length).sum)
    ∧ List.Chain' (fun c d : Cue => c.tsa.toSeconds < d.tsa.toSeconds)
        (mergedCues segments) := by
  have hok' : ∀ q ∈ segments, q.2 ≠ [] ∧ ∀ c ∈ q.2, CueOK q.1 c := hok
  have hlen2 : (segments.flatMap fun p => p.2.map (adjCue p.1)).length
      = (segments.map fun p => p.2.length).sum := by
    rw [List.length_flatMap]
    rw [map_congr_mem segments (List.length ∘ fun p : ℕ × List Cue => List.map (adjCue p.1) p.2)
      (fun p => p.2.length) fun p hp => by
      simp [Function.comp, List.length_map]]
  refine ⟨?_, ?_, ?_, ?_⟩
  · rw [combineSubtitles]
    rw [map_congr_mem segments _ _ fun p hp =>
      adjust_segment p.1 p.2 (hok' p hp).1 (hok' p hp).2]
    simp only [List.foldl_map]
    rw [foldl_segments segments [] 1 hok]
    show String.mk (trimChars (emitLines 1
      ((segments.flatMap fun p => p.2.map (adjCue p.1)).flatMap renderCueLines)).1) = _
    have hshift : ∀ c ∈ (segments.flatMap fun p => p.2.map (adjCue p.1)),
        c.tsa.inRange ∧ c.tsb.inRange ∧ ∀ l ∈ c.text, GoodLine l := by
      intro c hc
      obtain ⟨p, hp, hcp⟩ := List.mem_flatMap.mp hc
      obtain ⟨c0, hc0, rfl⟩ := List.mem_map.mp hcp
      obtain ⟨hca, hcb, hba, hbb, htext⟩ := (hok' p hp).2 c0 hc0
      exact ⟨canonical_inRange _ (shiftTs_canonical p.1 c0.tsa hca.2.2.2 hba),
        canonical_inRange _ (shiftTs_canonical p.1 c0.tsb hcb.2.2.2 hbb),
        htext⟩
    rw [emitLines_cues _ 1 hshift]
    show String.mk (trimChars
      (((renumFrom 1 (segments.flatMap fun p => p.2.map (adjCue p.1))).flatMap
        renderCueLines).flatMap fun l => l ++ ['\n'])) = _
    by_cases hseg : (segments.flatMap fun p => p.2.map (adjCue p.1)) = []
    · rw [hseg]
      rw [show renumFrom 1 ([] : List Cue) = [] from rfl]
      rw [show mergedCues segments
          = renumFrom 1 (segments.flatMap fun p => p.2.map (adjCue p.1)) from rfl]
      rw [hseg]
      rw [show renumFrom 1 ([] : List Cue) = [] from rfl]
      rfl
    · have hmne : renumFrom 1 (segments.flatMap fun p => p.2.map (adjCue p.1)) ≠ [] := by
        intro he
        apply hseg
        have hl := renumFrom_length (segments.flatMap fun p => p.2.map (adjCue p.1)) 1
        rw [he] at hl
        exact List.length_eq_zero.mp hl.symm
      rw [flatMap_newline _ (cues_lines_ne_nil _ hmne)]
      rw [trimChars_append_ws _ ['\n'] (by
        intro ch hch
        rw [List.mem_singleton] at hch
        subst hch
        decide)]
      rw [show mergedCues segments
          = renumFrom 1 (segments.flatMap fun p => p.2.map (adjCue p.1)) from rfl]
  · rw [show mergedCues segments
        = renumFrom 1 (segments.flatMap fun p => p.2.map (adjCue p.1)) from rfl]
    rw [renumFrom_length, hlen2]
  · rw [show mergedCues segments
        = renumFrom 1 (segments.flatMap fun p => p.2.map (adjCue p.1)) from rfl]
    rw [renumFrom_map_idx, hlen2]
  · rw [show mergedCues segments
        = renumFrom 1 (segments.flatMap fun p => p.2.map (adjCue p.1)) from rfl]
    exact renumFrom_chain_tsa _ 1 hord

/-- Witness for C2's amended theorem: two one-cue segments at offsets 0 and
60 seconds, with original cue indices 5 and 7, merge into a two-cue track
renumbered 1, 2 with strictly increasing start times. -/
theorem combine_merge_correct_witness :
    combineSubtitles
      ([((0 : ℕ), [(⟨5, ⟨0, 0, 1, 0⟩, ⟨0, 0, 2, 0⟩, [['h', 'i']]⟩ : Cue)]),
        (60, [⟨7, ⟨0, 0, 3, 500⟩, ⟨0, 0, 4, 0⟩, [['y', 'o']]⟩])].map
        fun p => adjustSubtitlesTiming (segmentSrt p.2) (p.1 : ℚ))
      = String.mk (trimChars (joinNl ((mergedCues
          [((0 : ℕ), [(⟨5, ⟨0, 0, 1, 0⟩, ⟨0, 0, 2, 0⟩, [['h', 'i']]⟩ : Cue)]),
           (60, [⟨7, ⟨0, 0, 3, 500⟩, ⟨0, 0, 4, 0⟩, [['y', 'o']]⟩])]).flatMap
          renderCueLines)))
    ∧ (mergedCues
          [((0 : ℕ), [(⟨5, ⟨0, 0, 1, 0⟩, ⟨0, 0, 2, 0⟩, [['h', 'i']]⟩ : Cue)]),
           (60, [⟨7, ⟨0, 0, 3, 500⟩, ⟨0, 0, 4, 0⟩, [['y', 'o']]⟩])]).length
        = ([((0 : ℕ), [(⟨5, ⟨0, 0, 1, 0⟩, ⟨0, 0, 2, 0⟩, [['h', 'i']]⟩ : Cue)]),
            (60, [⟨7, ⟨0, 0, 3, 500⟩, ⟨0, 0, 4, 0⟩, [['y', 'o']]⟩])].map
            fun p => p.2.length).sum
    ∧ (mergedCues
          [((0 : ℕ), [(⟨5, ⟨0, 0, 1, 0⟩, ⟨0, 0, 2, 0⟩, [['h', 'i']]⟩ : Cue)]),
           (60, [⟨7, ⟨0, 0, 3, 500⟩, ⟨0, 0, 4, 0⟩, [['y', 'o']]⟩])]).map Cue.idx
        = List.range' 1 (([((0 : ℕ), [(⟨5, ⟨0, 0, 1, 0⟩, ⟨0, 0, 2, 0⟩, [['h', 'i']]⟩ : Cue)]),
            (60, [⟨7, ⟨0, 0, 3, 500⟩, ⟨0, 0, 4, 0⟩, [['y', 'o']]⟩])].map
            fun p => p.2.length).sum)
    ∧ List.Chain' (fun c d : Cue => c.tsa.toSeconds < d.tsa.toSeconds)
        (mergedCues
          [((0 : ℕ), [(⟨5, ⟨0, 0, 1, 0⟩, ⟨0, 0, 2, 0⟩, [['h', 'i']]⟩ : Cue)]),
           (60, [⟨7, ⟨0, 0, 3, 500⟩, ⟨0, 0, 4, 0⟩, [['y', 'o']]⟩])]) :=
  combine_merge_correct
    [((0 : ℕ), [(⟨5, ⟨0, 0, 1, 0⟩, ⟨0, 0, 2, 0⟩, [['h', 'i']]⟩ : Cue)]),
     (60, [⟨7, ⟨0, 0, 3, 500⟩, ⟨0, 0, 4, 0⟩, [['y', 'o']]⟩])]
    (by
      intro p hp
      rcases List.mem_cons.mp hp with rfl | hp2
      · refine ⟨List.cons_ne_nil _ _, ?_⟩
        intro c hc
        rw [List.mem_singleton] at hc
        subst hc
        refine ⟨⟨by decide, by decide, by decide, by decide⟩,
          ⟨by decide, by decide, by decide, by decide⟩, by decide, by decide, ?_⟩
        intro l hl
        rw [List.mem_singleton] at hl
        subst hl
        exact ⟨rfl, by decide, rfl, rfl, by decide⟩
      · rw [List.mem_singleton] at hp2
        subst hp2
        refine ⟨List.cons_ne_nil _ _, ?_⟩
        intro c hc
        rw [List.mem_singleton] at hc
        subst hc
        refine ⟨⟨by decide, by decide, by decide, by decide⟩,
          ⟨by decide, by decide, by decide, by decide⟩, by decide, by decide, ?_⟩
        intro l hl
        rw [List.mem_singleton] at hl
        subst hl
        exact ⟨rfl, by decide, rfl, rfl, by decide⟩)
    (by
      show List.Chain' (fun c d : Cue => c.tsa.toSeconds < d.tsa.toSeconds)
        [adjCue 0 ⟨5, ⟨0, 0, 1, 0⟩, ⟨0, 0, 2, 0⟩, [['h', 'i']]⟩,
         adjCue 60 ⟨7, ⟨0, 0, 3, 500⟩, ⟨0, 0, 4, 0⟩, [['y', 'o']]⟩]
      refine List.chain'_cons.mpr ⟨?_, List.chain'_singleton _⟩
      norm_num [adjCue, shiftTs, Ts.toSeconds])

/-- C2 counterexample: the merge does not renumber per cue block — it
renumbers every digit-only line.  A cue whose text line is the digit-only
string "42" has that text line consumed as an index line: the merged track
replaces the text by the running counter and numbers the following cue 3
instead of 2, so a one-segment merge of two cues is neither the renumbered
concatenation nor contiguously indexed.  (Offset 0 is applied first, exactly
as in the pipeline.) -/
theorem combine_renumber_cex :
    adjustSubtitlesTiming (segmentSrt
        [(⟨1, ⟨0, 0, 1, 0⟩, ⟨0, 0, 2, 0⟩, [['4', '2']]⟩ : Cue),
         ⟨2, ⟨0, 0, 3, 0⟩, ⟨0, 0, 4, 0⟩, [['h', 'i']]⟩]) 0
      = segmentSrt
        [(⟨1, ⟨0, 0, 1, 0⟩, ⟨0, 0, 2, 0⟩, [['4', '2']]⟩ : Cue),
         ⟨2, ⟨0, 0, 3, 0⟩, ⟨0, 0, 4, 0⟩, [['h', 'i']]⟩]
    ∧ combineSubtitles [adjustSubtitlesTiming (segmentSrt
        [(⟨1, ⟨0, 0, 1, 0⟩, ⟨0, 0, 2, 0⟩, [['4', '2']]⟩ : Cue),
         ⟨2, ⟨0, 0, 3, 0⟩, ⟨0, 0, 4, 0⟩, [['h', 'i']]⟩]) 0]
      ≠ String.mk (trimChars (joinNl ((mergedCues
          [((0 : ℕ), [(⟨1, ⟨0, 0, 1, 0⟩, ⟨0, 0, 2, 0⟩, [['4', '2']]⟩ : Cue),
            ⟨2, ⟨0, 0, 3, 0⟩, ⟨0, 0, 4, 0⟩, [['h', 'i']]⟩])]).flatMap renderCueLines)))
    ∧ combineSubtitles [adjustSubtitlesTiming (segmentSrt
        [(⟨1, ⟨0, 0, 1, 0⟩, ⟨0, 0, 2, 0⟩, [['4', '2']]⟩ : Cue),
         ⟨2, ⟨0, 0, 3, 0⟩, ⟨0, 0, 4, 0⟩, [['h', 'i']]⟩]) 0]
      = "1\n00:00:01,000 --> 00:00:02,000\n2\n\n3\n00:00:03,000 --> 00:00:04,000\nhi" := by
  have hadj : adjustSubtitlesTiming (segmentSrt
      [(⟨1, ⟨0, 0, 1, 0⟩, ⟨0, 0, 2, 0⟩, [['4', '2']]⟩ : Cue),
       ⟨2, ⟨0, 0, 3, 0⟩, ⟨0, 0, 4, 0⟩, [['h', 'i']]⟩]) 0
      = segmentSrt
      [(⟨1, ⟨0, 0, 1, 0⟩, ⟨0, 0, 2, 0⟩, [['4', '2']]⟩ : Cue),
       ⟨2, ⟨0, 0, 3, 0⟩, ⟨0, 0, 4, 0⟩, [['h', 'i']]⟩] := by
    rw [adjustSubtitlesTiming]
    rw [show (segmentSrt
        [(⟨1, ⟨0, 0, 1, 0⟩, ⟨0, 0, 2, 0⟩, [['4', '2']]⟩ : Cue),
         ⟨2, ⟨0, 0, 3, 0⟩, ⟨0, 0, 4, 0⟩, [['h', 'i']]⟩]).toList
      = joinNl ([(⟨1, ⟨0, 0, 1, 0⟩, ⟨0, 0, 2, 0⟩, [['4', '2']]⟩ : Cue),
         ⟨2, ⟨0, 0, 3, 0⟩, ⟨0, 0, 4, 0⟩, [['h', 'i']]⟩].flatMap renderCueLines) from rfl]
    rw [splitNl_joinNl _ (by decide) (by decide)]
    rw [show [(⟨1, ⟨0, 0, 1, 0⟩, ⟨0, 0, 2, 0⟩, [['4', '2']]⟩ : Cue),
         ⟨2, ⟨0, 0, 3, 0⟩, ⟨0, 0, 4, 0⟩, [['h', 'i']]⟩].flatMap renderCueLines
      = [(Nat.repr 1).toList, canonTsLine ⟨0, 0, 1, 0⟩ ⟨0, 0, 2, 0⟩, ['4', '2'], [],
         (Nat.repr 2).toList, canonTsLine ⟨0, 0, 3, 0⟩ ⟨0, 0, 4, 0⟩, ['h', 'i'], []] from rfl]
    simp only [List.map_cons, List.map_nil]
    rw [show (0 : ℚ) = ((0 : ℕ) : ℚ) from by norm_num]
    rw [adjustLine_canon 0 ⟨0, 0, 1, 0⟩ ⟨0, 0, 2, 0⟩
      ⟨by decide, by decide, by decide, by decide⟩
      ⟨by decide, by decide, by decide, by decide⟩ (by decide) (by decide)]
    rw [adjustLine_canon 0 ⟨0, 0, 3, 0⟩ ⟨0, 0, 4, 0⟩
      ⟨by decide, by decide, by decide, by decide⟩
      ⟨by decide, by decide, by decide, by decide⟩ (by decide) (by decide)]
    rw [shiftTs_zero ⟨0, 0, 1, 0⟩ ⟨by decide, by decide, by decide, by decide⟩,
      shiftTs_zero ⟨0, 0, 2, 0⟩ ⟨by decide, by decide, by decide, by decide⟩,
      shiftTs_zero ⟨0, 0, 3, 0⟩ ⟨by decide, by decide, by decide, by decide⟩,
      shiftTs_zero ⟨0, 0, 4, 0⟩ ⟨by decide, by decide, by decide, by decide⟩]
    rfl
  refine ⟨hadj, ?_, ?_⟩
  · rw [hadj]
    decide
  · rw [hadj]
    decide

end VideoPipeline
